import Mathlib

/-!
Verification development for the unide.python PPMP library.

The Python library is shallowly embedded: Python runtime values that can
appear in an entity's backing store (`_data`) or in a decoded JSON document
are modelled by the inductive type `Val`; every concrete entity class of the
repository gets a tag in `Cls`, and the per-class `Property` declarations
are tabulated in `clsProps`, mirroring the class bodies of `common.py`,
`measurement.py`, `message.py` and `process.py`.  The generic machinery of
`schema.py` (`Property.check`, `Property.__get__`, `Property.__set__`,
`Object.problems`, `Object.load`, `HasDimensions.load`, `make_object`) and
the codec of `util.py` (`dumps`, `loads`) are translated as functions over
`Val`.  Exceptions raised by the Python code are modelled with
`Except String`.

Modelling conventions:

* JSON numbers keep Python's int/float distinction (`vint` / `vfloat`,
  with `Rat` standing for IEEE doubles; the payloads under study never
  exercise rounding).
* `datetime` values are modelled as integer microsecond timestamps
  (`vdt`); all stored datetimes are timezone-aware, so the library's
  `local_timezone`/`util.local_timezone` conversion is the identity on
  them.  The external ISO-8601 codec (`datetime.isoformat` and
  `dateutil.parser.parse`), an out-of-scope library dependency, is
  modelled by the lossless pair `isoEncode`/`isoParse`.
* Python dicts are association lists with unique keys; `OrderedDict`,
  plain `dict` and `StringMap` all preserve insertion order, which the
  list order captures.  The `dimensions` attribute of `HasDimensions`
  instances (a Python set) is modelled as an insertion-ordered,
  duplicate-free list of names; only membership is ever observed except
  for iteration order, which is unspecified in Python and fixed here to
  insertion order.
* An entity instance is `vent c dims data` where `data` is the adopted
  `_data` value (a `vdict` in every well-formed state, but `make_object`
  adopts arbitrary values, which the model keeps faithfully).

In the repository the `String`/`Float`/`Map`/`Datetime`/`InstanceOf`/
`ListOf` wrapper signatures in `schema.py` dropped the leading `name`
parameter that every caller in `common.py`/`measurement.py`/`process.py`
still passes positionally (the spec notes the repository mixes two
revisions of these modules).  The tables below resolve each declaration
the way the callers and the metaclass intend: the first positional
argument is the property name, the remaining arguments configure the
property.
-/

set_option autoImplicit false

namespace Unide

/-- Tags for every concrete entity class defined in the repository.
Suffix `M` marks classes from `measurement.py`, suffix `P` classes from
`process.py`; unsuffixed tags are unambiguous. -/
inductive Cls where
  | device
  | partM
  | limitM
  | limitsM
  | seriesM
  | measM
  | measurementPayload
  | message
  | messagePayload
  | partP
  | program
  | shutoffValue
  | shutoffValues
  | processE
  | specialValue
  | specialValues
  | seriesP
  | limitP
  | limitsP
  | measP
  | processPayload
  deriving DecidableEq, Repr

/-- Python runtime values reachable in backing stores and JSON trees. -/
inductive Val where
  | vnull
  | vbool  (b : Bool)
  | vint   (n : Int)
  | vfloat (q : Rat)
  | vstr   (s : String)
  | vdt    (t : Int)
  | vlist  (xs : List Val)
  | vdict  (es : List (String × Val))
  | vent   (c : Cls) (dims : List String) (data : Val)
  deriving Repr

/-- The accepted-types set of a `Property` (its `types` argument). -/
inductive TK where
  | tStr
  | tFloat
  | tDt
  | tList
  | tEnt (c : Cls)
  deriving DecidableEq, Repr

/-- Which constructor of `schema.py` built a property, with its
configuration; `toConv`/`toLoadK`/`toDefault` etc. elaborate it exactly the
way the wrapper functions do. -/
inductive PCtor where
  | pString (bound : Option Nat) (oneof : Option (List String)) (nullable : Bool)
  | pFloat (nullable : Bool)
  | pDatetime (nullable : Bool)
  | pMap
  | pPlain
  | pInstOf (c : Cls) (hasDefault : Bool)
  | pListOf (c : Cls)
  deriving DecidableEq, Repr

/-- The `convert` function installed by each property constructor. -/
inductive CK where
  | ckId
  | ckStr
  | ckFloat
  | ckTz
  deriving DecidableEq, Repr

/-- The `load` function installed by each property constructor. -/
inductive LK where
  | lkId
  | lkIso
  | lkEnt (c : Cls)
  | lkList (c : Cls)
  deriving DecidableEq, Repr

/-- The `default` factory installed by each property constructor
(`lambda: None`, `StringMap`, `list`, or an entity class). -/
inductive DK where
  | dkNone
  | dkMap
  | dkList
  | dkEnt (c : Cls)
  deriving DecidableEq, Repr

/-- `types` as configured by each constructor (`String` -> stringy types,
`Float` -> float, `Datetime` -> datetime, `InstanceOf cls` -> cls,
`ListOf` -> list, `Map`/plain `Property` -> no type restriction). -/
def toTypes : PCtor → Option TK
  | .pString _ _ _ => some .tStr
  | .pFloat _      => some .tFloat
  | .pDatetime _   => some .tDt
  | .pMap          => none
  | .pPlain        => none
  | .pInstOf c _   => some (.tEnt c)
  | .pListOf _     => some .tList

def toBound : PCtor → Option Nat
  | .pString b _ _ => b
  | _ => none

def toOneof : PCtor → Option (List String)
  | .pString _ o _ => o
  | _ => none

def toNullable : PCtor → Bool
  | .pString _ _ n => n
  | .pFloat n      => n
  | .pDatetime n   => n
  | _              => true

def toConv : PCtor → CK
  | .pString _ _ _ => .ckStr
  | .pFloat _      => .ckFloat
  | .pDatetime _   => .ckTz
  | _              => .ckId

def toLoadK : PCtor → LK
  | .pDatetime _ => .lkIso
  | .pInstOf c _ => .lkEnt c
  | .pListOf c   => .lkList c
  | _            => .lkId

def toDefault : PCtor → DK
  | .pMap             => .dkMap
  | .pListOf _        => .dkList
  | .pInstOf c true   => .dkEnt c
  | _                 => .dkNone

/-- `Result()` from `common.py`. -/
def resultProp : PCtor := .pString none (some ["OK", "NOK", "UNKNOWN"]) true

/-- `Code(null)` from `common.py`. -/
def codeProp (nullable : Bool) : PCtor := .pString (some 36) none nullable

/-- The declared properties of each class, in class-body declaration
order, as discovered by `Object.get_properties` (`vars(cls)` keeps only
the class's own `Property` attributes). -/
def clsProps : Cls → List (String × PCtor)
  | .device =>
      [("deviceID", .pString (some 36) none false),
       ("operationalStatus", .pString none none true),
       ("metaData", .pMap)]
  | .partM =>
      [("partTypeID", .pString none none true),
       ("partID", .pString (some 256) none true),
       ("result", resultProp),
       ("code", codeProp true),
       ("metaData", .pMap)]
  | .limitM =>
      [("upperError", .pFloat true),
       ("lowerError", .pFloat true),
       ("upperWarning", .pFloat true),
       ("lowerWarning", .pFloat true)]
  | .limitsM => []
  | .seriesM => [("$_time", .pPlain)]
  | .measM =>
      [("ts", .pDatetime false),
       ("result", resultProp),
       ("code", codeProp true),
       ("series", .pInstOf .seriesM true),
       ("limits", .pInstOf .limitsM true)]
  | .measurementPayload =>
      [("device", .pInstOf .device false),
       ("part", .pInstOf .partM false),
       ("measurements", .pListOf .measM)]
  | .message =>
      [("ts", .pDatetime true),
       ("origin", .pString none none true),
       ("type", .pString none (some ["DEVICE", "TECHNICAL_INFO"]) true),
       ("severity", .pString none (some ["HIGH", "MEDIUM", "LOW", "UNKNOWN"]) true),
       ("code", codeProp false),
       ("title", .pString (some 1000) none true),
       ("description", .pString (some 2000) none true),
       ("hint", .pString (some 2000) none true),
       ("metaData", .pMap)]
  | .messagePayload =>
      [("device", .pInstOf .device false),
       ("messages", .pListOf .message)]
  | .partP =>
      [("partTypeID", .pString none none true),
       ("type", .pString none (some ["SINGLE", "BATCH"]) true),
       ("partID", .pString (some 256) none false),
       ("result", resultProp),
       ("code", codeProp true),
       ("metaData", .pMap)]
  | .program =>
      [("id", .pString (some 36) none false),
       ("name", .pString (some 256) none false),
       ("lastChangedDate", .pDatetime true)]
  | .shutoffValue =>
      [("value", .pFloat true),
       ("ts", .pDatetime true),
       ("upperError", .pFloat true),
       ("lowerError", .pFloat true),
       ("upperWarning", .pFloat true),
       ("lowerWarning", .pFloat true)]
  | .shutoffValues => []
  | .processE =>
      [("ts", .pDatetime false),
       ("externalProcessId", .pString (some 36) none true),
       ("result", resultProp),
       ("shutoffPhase", .pString none none true),
       ("metaData", .pMap),
       ("program", .pInstOf .program false),
       ("shutoffValues", .pInstOf .shutoffValues true)]
  | .specialValue =>
      [("time", .pFloat true),
       ("value", .pFloat false)]
  | .specialValues => []
  | .seriesP => []
  | .limitP =>
      [("upperError", .pPlain),
       ("lowerError", .pPlain),
       ("upperWarning", .pPlain),
       ("lowerWarning", .pPlain),
       ("target", .pPlain)]
  | .limitsP => []
  | .measP =>
      [("ts", .pDatetime false),
       ("phase", .pString (some 256) none true),
       ("name", .pString (some 256) none true),
       ("result", resultProp),
       ("code", codeProp true),
       ("specialValues", .pInstOf .specialValues true),
       ("series", .pInstOf .seriesP true),
       ("limits", .pInstOf .limitsP true)]
  | .processPayload =>
      [("device", .pInstOf .device false),
       ("part", .pInstOf .partP false),
       ("process", .pInstOf .processE false),
       ("measurements", .pListOf .measP)]

/-- The `CONTENT_SPEC` class constant, where declared. -/
def csOf : Cls → Option String
  | .measurementPayload => some "urn:spec://eclipse.org/unide/measurement-message#v2"
  | .messagePayload     => some "urn:spec://eclipse.org/unide/machine-message#v2"
  | .processPayload     => some "urn:spec://eclipse.org/unide/process-message#v2"
  | _ => none

/-- `cls.__name__`, used in validation messages. -/
def clsName : Cls → String
  | .device => "Device"
  | .partM => "Part"
  | .limitM => "Limit"
  | .limitsM => "Limits"
  | .seriesM => "Series"
  | .measM => "Measurement"
  | .measurementPayload => "MeasurementPayload"
  | .message => "Message"
  | .messagePayload => "MessagePayload"
  | .partP => "Part"
  | .program => "Program"
  | .shutoffValue => "ShutoffValue"
  | .shutoffValues => "ShutoffValues"
  | .processE => "Process"
  | .specialValue => "SpecialValue"
  | .specialValues => "SpecialValues"
  | .seriesP => "Series"
  | .limitP => "Limit"
  | .limitsP => "Limits"
  | .measP => "Measurement"
  | .processPayload => "ProcessPayload"

/-- The element type of a dimension container (`__dimtype__`), for the
`HasDimensions` subclasses; `none` marks plain-`Object` classes. -/
inductive DimT where
  | listD
  | entD (c : Cls)
  deriving DecidableEq, Repr

def dimTypeOf : Cls → Option DimT
  | .limitsM       => some (.entD .limitM)
  | .seriesM       => some .listD
  | .shutoffValues => some (.entD .shutoffValue)
  | .specialValues => some (.entD .specialValue)
  | .seriesP       => some .listD
  | .limitsP       => some (.entD .limitP)
  | _ => none

/-- Which `load` classmethod a class uses: `Object.load`,
`HasDimensions.load`, or the `Series.load` override in `measurement.py`
(which skips the reserved time column). -/
inductive LStyle where
  | plain
  | dimsLoad
  | seriesLoad
  deriving DecidableEq, Repr

def loadStyle : Cls → LStyle
  | .limitsM       => .dimsLoad
  | .seriesM       => .seriesLoad
  | .shutoffValues => .dimsLoad
  | .specialValues => .dimsLoad
  | .seriesP       => .dimsLoad
  | .limitsP       => .dimsLoad
  | _ => .plain

/-- `is_excess_field_ok`: false on plain `Object`s, membership in the
declared dimension set on `HasDimensions`. -/
def excessOK (c : Cls) (dims : List String) (k : String) : Bool :=
  match dimTypeOf c with
  | some _ => dims.contains k
  | none   => false

/-- The content-spec registry `util.CONTENT_SPECS`, populated by
`payload_wrapper` on the three payload classes. -/
def registry (s : String) : Option Cls :=
  if s = "urn:spec://eclipse.org/unide/measurement-message#v2" then some .measurementPayload
  else if s = "urn:spec://eclipse.org/unide/machine-message#v2" then some .messagePayload
  else if s = "urn:spec://eclipse.org/unide/process-message#v2" then some .processPayload
  else none

/-! ### Ordered-dictionary primitives

Backing stores are Python dicts: insertion-ordered, unique keys. -/

/-- `d.get(k)`. -/
def lookupV (k : String) : List (String × Val) → Option Val
  | [] => none
  | (k', v) :: es => if k' = k then some v else lookupV k es

/-- `d.pop(k, None)`: remove the entry for `k`, if any. -/
def eraseKey (k : String) : List (String × Val) → List (String × Val)
  | [] => []
  | (k', v) :: es => if k' = k then es else (k', v) :: eraseKey k es

/-- `d[k] = v`: replace in place, keeping the key's position, else append. -/
def setIns (k : String) (v : Val) : List (String × Val) → List (String × Val)
  | [] => [(k, v)]
  | (k', v') :: es => if k' = k then (k, v) :: es else (k', v') :: setIns k v es

def keysOf (es : List (String × Val)) : List String := es.map Prod.fst

/-! ### The external ISO-8601 datetime codec

`dumps` renders datetimes with `datetime.isoformat` and the `Datetime`
property re-reads them with `dateutil.parser.parse`; both are out-of-scope
library primitives (spec section 6), modelled here as a lossless codec on
microsecond timestamps.  The encoding is a sign and little-endian decimal
digits behind a fixed marker; any string not of that shape fails to parse,
standing in for `ValueError` on garbage input. -/

def digitChar (d : Nat) : Char := Char.ofNat (48 + d)

def charDigit (c : Char) : Option Nat :=
  if 48 ≤ c.toNat ∧ c.toNat ≤ 57 then some (c.toNat - 48) else none

def digitsToNat : List Char → Option (List Nat)
  | [] => some []
  | c :: cs =>
      match charDigit c, digitsToNat cs with
      | some d, some ds => some (d :: ds)
      | _, _ => none

def isoEncode (t : Int) : String :=
  ⟨'i' :: 's' :: 'o' :: ':' :: (if t < 0 then '-' else '+')
      :: (Nat.digits 10 t.natAbs).map digitChar⟩

def isoParse (s : String) : Except String Val :=
  match s.data with
  | 'i' :: 's' :: 'o' :: ':' :: sign :: rest =>
      match digitsToNat rest with
      | some ds =>
          let n : Int := Nat.ofDigits 10 ds
          if sign = '-' then .ok (.vdt (-n))
          else if sign = '+' then .ok (.vdt n)
          else .error "ValueError: unknown string format"
      | none => .error "ValueError: unknown string format"
  | _ => .error "ValueError: unknown string format"

/-! ### Python primitives used by property conversion and checking -/

/-- A decimal-string parser standing in for Python's `float(str)`;
accepts an optional sign, digits and an optional fraction part. -/
def decStringToRat (s : String) : Option Rat :=
  let core : List Char → Option Rat := fun cs =>
    match cs.span (fun c => (charDigit c).isSome) with
    | (intPart, rest) =>
        if intPart.isEmpty then none
        else
          match digitsToNat intPart.reverse with
          | none => none
          | some ds =>
              let ip : Rat := (Nat.ofDigits 10 ds : Nat)
              match rest with
              | [] => some ip
              | '.' :: frac =>
                  if frac.isEmpty then some ip
                  else match digitsToNat frac.reverse with
                    | none => none
                    | some fs =>
                        some (ip + (Nat.ofDigits 10 fs : Nat) / ((10 : Rat) ^ frac.length))
              | _ => none
  match s.data with
  | '-' :: cs => (core cs).map Neg.neg
  | '+' :: cs => core cs
  | cs => core cs

/-- Python `float(x)` as used by the `Float` property's `convert`. -/
def pyFloat : Val → Except String Val
  | .vfloat q => .ok (.vfloat q)
  | .vint n => .ok (.vfloat (n : Rat))
  | .vbool b => .ok (.vfloat (if b then 1 else 0))
  | .vstr s =>
      match decStringToRat s with
      | some q => .ok (.vfloat q)
      | none => .error "ValueError: could not convert string to float"
  | _ => .error "TypeError: float() argument"

/-- `schema.to_string`: `str` values pass through unchanged (there are no
`bytes` values in the model); everything else is returned unconverted. -/
def pyToString (v : Val) : Val := v

/-- `util.local_timezone`: attaches the local timezone to naive datetimes;
identity on aware datetimes and on everything without a `tzinfo`
attribute.  All modelled datetimes are aware, so this is the identity. -/
def pyLocalTz (v : Val) : Val := v

/-- `Property.convert` for each constructor's `convert` function. -/
def applyConv : CK → Val → Except String Val
  | .ckId, v => .ok v
  | .ckStr, v => .ok (pyToString v)
  | .ckFloat, v => pyFloat v
  | .ckTz, v => .ok (pyLocalTz v)

/-- `isinstance(v, types)` for the type sets a property can declare. -/
def isinst : TK → Val → Bool
  | .tStr, .vstr _ => true
  | .tFloat, .vfloat _ => true
  | .tDt, .vdt _ => true
  | .tList, .vlist _ => true
  | .tEnt c, .vent c' _ _ => c' = c
  | _, _ => false

/-- Python `len(v)`; raises `TypeError` on values without a length. -/
def pyLen : Val → Except String Nat
  | .vstr s => .ok s.length
  | .vlist xs => .ok xs.length
  | .vdict es => .ok es.length
  | _ => .error "TypeError: object has no length"

/-- Python `v in oneof` for the string tuples used as `oneof` sets. -/
def memOneof (os : List String) : Val → Bool
  | .vstr s => os.contains s
  | _ => false

/-- The value produced by a property's `default` factory. -/
def freshEnt : Cls → Val
  | .seriesM => .vent .seriesM [] (.vdict [("$_time", .vlist [])])
  | c => .vent c [] (.vdict [])

def defaultVal : DK → Val
  | .dkNone => .vnull
  | .dkMap => .vdict []
  | .dkList => .vlist []
  | .dkEnt c => freshEnt c

/-! ### Validation: `Property.check` and `Object.problems` -/

def nullMsg (fieldname : String) : String := fieldname ++ " may not be null"

def wrongTypeMsg (fieldname : String) : String :=
  "not an appropriate value for " ++ fieldname ++ " (wrong type)"

def tooLongMsg (fieldname : String) (b : Nat) : String :=
  fieldname ++ " may not be longer than " ++ toString b

def notOneofMsg (os : List String) (fieldname : String) : String :=
  "must be one of " ++ String.intercalate ", " os ++ " for " ++ fieldname

def csMsg (c : Cls) : String :=
  "content-spec for " ++ clsName c ++ " wrong or missing"

def unknownMsg (c : Cls) (k : String) : String :=
  k ++ " is not a valid key for " ++ clsName c ++ " objects"

/-- The discriminator check of `Object.problems`: the error accumulated
when `self._data.get("content-spec")` differs from the class constant. -/
def csErrList (c : Cls) (cs : String) (es : List (String × Val)) : List String :=
  match lookupV "content-spec" es with
  | some (.vstr s) => if s = cs then [] else [csMsg c]
  | _ => [csMsg c]

/-- `Property._has_wrong_type`, as a matched/not-matched message. -/
def typeStage (pc : PCtor) (fieldname : String) (v : Val) : Option String :=
  match toTypes pc with
  | none => none
  | some tk => if isinst tk v then none else some (wrongTypeMsg fieldname)

/-- `Property._has_wrong_length`; `len` can raise `TypeError`. -/
def lenStage (pc : PCtor) (fieldname : String) (v : Val) : Except String (Option String) :=
  match toBound pc with
  | none => .ok none
  | some b =>
      match pyLen v with
      | .error e => .error e
      | .ok n => .ok (if b < n then some (tooLongMsg fieldname b) else none)

/-- `Property._is_not_one_of`. -/
def oneofStage (pc : PCtor) (fieldname : String) (v : Val) : Option String :=
  match toOneof pc with
  | none => none
  | some os => if memOneof os v then none else some (notOneofMsg os fieldname)

/-- The first three stages of the `Property.check` pipeline
(`_has_wrong_type`, `_has_wrong_length`, `_is_not_one_of`), first match
wins; `none` means none of them fired. -/
def preStages (pc : PCtor) (fieldname : String) (v : Val) :
    Except String (Option String) :=
  match typeStage pc fieldname v with
  | some m => .ok (some m)
  | none =>
      match lenStage pc fieldname v with
      | .error e => .error e
      | .ok (some m) => .ok (some m)
      | .ok none => .ok (oneofStage pc fieldname v)

def lookupP (k : String) : List (String × PCtor) → Option PCtor
  | [] => none
  | (k', pc) :: ps => if k' = k then some pc else lookupP k ps

/-- Lookup in a per-key check-result table. -/
def lookupC (k : String) :
    List (String × Except String (List String)) → Option (Except String (List String))
  | [] => none
  | (k', r) :: cs => if k' = k then some r else lookupC k cs

/-- The declared-property loop of `Object.problems`: for every declared
property whose name is among the not-yet-consumed keys, consume the key
and use the property's check result for the stored value; returns the
accumulated errors and the remaining keys.  The source interleaves each
check with the loop; the checks are pure, so consuming the precomputed
per-entry results (`checkEntries`) in declaration order is the same
function.  A consumed key always has a recorded check when the loop is
invoked from `problems` (its keys are store keys and its properties are
the class properties), so the `none` branch is unreachable there. -/
def probLoopA (checks : List (String × Except String (List String)))
    (props : List (String × PCtor)) (keys : List String) :
    Except String (List String × List String) :=
  match props with
  | [] => .ok ([], keys)
  | (name, _) :: rest =>
      if keys.contains name then
        match lookupC name checks with
        | some (.error e) => .error e
        | some (.ok errs) =>
            match probLoopA checks rest (keys.erase name) with
            | .error e => .error e
            | .ok (errs2, keysF) => .ok (errs ++ errs2, keysF)
        | none => .error "KeyError: internal"
      else probLoopA checks rest keys

/-- The property loop of `Object.problems` followed by the unknown-field
stage: consume every declared property's check over the not-yet-consumed
keys, then report every still-unconsumed key that `is_excess_field_ok`
rejects. -/
def runProblemsA (c : Cls) (dims : List String)
    (checks : List (String × Except String (List String)))
    (initErrs : List String) (keys : List String) : Except String (List String) :=
  match probLoopA checks (clsProps c) keys with
  | .error e => .error e
  | .ok (perrs, rem) =>
      .ok (initErrs ++ perrs ++
        (rem.filter (fun k => !(excessOK c dims k))).map (unknownMsg c))

mutual

/-- `Property.check`: the null gate followed by the short-circuiting
`[_has_wrong_type, _has_wrong_length, _is_not_one_of, _has_subproblems]`
pipeline; the result is the list of errors appended to the caller's
accumulator.  Only entity values have a `problems` attribute, so
`_has_subproblems` fires exactly on `vent`; nested validation can itself
raise, which the `Except` layer propagates. -/
def checkFn (own : String) (name : String) (pc : PCtor) (v : Val) :
    Except String (List String) :=
  let fieldname := own ++ "." ++ name
  match v with
  | .vnull => .ok (if toNullable pc then [] else [nullMsg fieldname])
  | .vent c dims d =>
      match preStages pc fieldname (.vent c dims d) with
      | .error e => .error e
      | .ok (some m) => .ok [m]
      | .ok none => problemsE c dims d
  | v' =>
      match preStages pc fieldname v' with
      | .error e => .error e
      | .ok (some m) => .ok [m]
      | .ok none => .ok []

/-- `Object.problems`: discriminator handling, declared-property checks in
declaration order, then unknown-field errors for unconsumed keys.  The
`existing_fields` set is tracked as the insertion-ordered key list; when
the class declares a `CONTENT_SPEC` but the key is missing from the store,
`set.remove` raises `KeyError` (after having appended the discriminator
error to the caller's accumulator, which the exception discards). -/
def problemsE (c : Cls) (dims : List String) (data : Val) :
    Except String (List String) :=
  match data with
  | .vdict es =>
      match csOf c with
      | some cs =>
          if (keysOf es).contains "content-spec" then
            runProblemsA c dims (checkEntries c es) (csErrList c cs es)
              ((keysOf es).erase "content-spec")
          else .error "KeyError: content-spec"
      | none => runProblemsA c dims (checkEntries c es) [] (keysOf es)
  | _ => .error "TypeError: argument of type is not iterable"

/-- The check result of every store entry whose key names a declared
property (`self._data.get(name)` is the entry's value, since the key is
present). -/
def checkEntries (c : Cls) :
    List (String × Val) → List (String × Except String (List String))
  | [] => []
  | (k, v) :: rest =>
      match lookupP k (clsProps c) with
      | some pc => (k, checkFn (clsName c) k pc v) :: checkEntries c rest
      | none => checkEntries c rest

end

/-! ### Property access: `Property.__set__` and `Property.__get__` -/

/-- `Property.__set__`: returns the raised message (if any) together with
the backing store afterwards, reflecting the source's mutation order: a
null assignment checks, then deletes the key, then raises if the check
collected errors; a non-null assignment converts, checks, and stores only
when no errors were collected. -/
def setPropFn (c : Cls) (name : String) (pc : PCtor) (st : List (String × Val))
    (v : Val) : Option String × List (String × Val) :=
  match v with
  | .vnull =>
      match checkFn (clsName c) name pc .vnull with
      | .error e => (some e, st)
      | .ok errs =>
          let st1 := eraseKey name st
          if errs.isEmpty then (none, st1)
          else (some (String.intercalate "\n" errs), st1)
  | _ =>
      match applyConv (toConv pc) v with
      | .error e => (some e, st)
      | .ok cv =>
          match checkFn (clsName c) name pc cv with
          | .error e => (some e, st)
          | .ok errs =>
              if errs.isEmpty then (none, setIns name cv st)
              else (some (String.intercalate "\n" errs), st)

/-- `Property.__get__`: `self._data.setdefault(self._name, self._default())`
— the default is materialized *and inserted into the store* on a miss. -/
def getPropFn (name : String) (pc : PCtor) (st : List (String × Val)) :
    Val × List (String × Val) :=
  match lookupV name st with
  | some v => (v, st)
  | none =>
      let d := defaultVal (toDefault pc)
      (d, st ++ [(name, d)])

/-! ### Serialization: `util.dumps` -/

mutual

/-- `util.dumps`: the JSON encoder walks the value; datetimes are encoded
through `isoformat`, anything with a `_data` attribute is replaced by its
backing store, dicts and lists are encoded entrywise. -/
def dumpVal : Val → Val
  | .vdt t => .vstr (isoEncode t)
  | .vent _ _ d => dumpVal d
  | .vlist xs => .vlist (dumpList xs)
  | .vdict es => .vdict (dumpEntries es)
  | v => v

def dumpList : List Val → List Val
  | [] => []
  | x :: xs => dumpVal x :: dumpList xs

def dumpEntries : List (String × Val) → List (String × Val)
  | [] => []
  | (k, v) :: es => (k, dumpVal v) :: dumpEntries es

end

/-! ### Loading: `Object.load`, `HasDimensions.load`, `Series.load` -/

/-- `set.add` on the declared-dimension name list. -/
def addDim (dims : List String) (k : String) : List String :=
  if dims.contains k then dims else dims ++ [k]

/-- `make_object(__dimtype__, data)` in `HasDimensions.add_dimension`:
entity dimension types adopt the raw data as the backing store; `list` is
not an `Object` subclass, so the raw data is returned unchanged. -/
def makeDim : DimT → Val → Val
  | .listD, v => v
  | .entD c, v => .vent c [] v

/-- `self.__dimtype__()`: the fresh value built when `add_dimension` is
called without data (all dimension element classes build an empty store). -/
def dimFresh : DimT → Val
  | .listD => .vlist []
  | .entD c => .vent c [] (.vdict [])

/-- The loop of `HasDimensions.load`: every key of the adopted map becomes
a dimension via `add_dimension(key, value)` (a `None` value triggers the
no-data branch, building a fresh `__dimtype__()`). -/
def dimsBuild (dt : DimT) (pend : List (String × Val)) (st : List (String × Val))
    (dims : List String) : List (String × Val) × List String :=
  match pend with
  | [] => (st, dims)
  | (k, v) :: rest =>
      let valobj := match v with
        | .vnull => dimFresh dt
        | v' => makeDim dt v'
      dimsBuild dt rest (setIns k valobj st) (addDim dims k)

/-- The loop of the `Series.load` override in `measurement.py`: identical
to `HasDimensions.load` except that the reserved `$_time` column is left
untouched and not declared as a dimension. -/
def seriesBuild (dt : DimT) (pend : List (String × Val)) (st : List (String × Val))
    (dims : List String) : List (String × Val) × List String :=
  match pend with
  | [] => (st, dims)
  | (k, v) :: rest =>
      if k = "$_time" then seriesBuild dt rest st dims
      else
        let valobj := match v with
          | .vnull => dimFresh dt
          | v' => makeDim dt v'
        seriesBuild dt rest (setIns k valobj st) (addDim dims k)

mutual

/-- The `for key, value in data.items()` loop of `Object.load`.  The store
argument is the live adopted dict: setting a declared property replaces
the value in place, deleting (on a loaded null) makes the running
iterator raise `RuntimeError` at its next step, and a setter error
propagates as the raised `ValueError`. -/
def objLoadLoop (c : Cls) (pend : List (String × Val)) (st : List (String × Val)) :
    Except String (List (String × Val)) :=
  match pend with
  | [] => .ok st
  | (k, v) :: rest =>
      match lookupP k (clsProps c) with
      | none => objLoadLoop c rest st
      | some pc =>
          match applyLoadK (toLoadK pc) v with
          | .error e => .error e
          | .ok lv =>
              match setPropFn c k pc st lv with
              | (some e, _) => .error e
              | (none, st') =>
                  match lv with
                  | .vnull => .error "RuntimeError: dictionary changed size during iteration"
                  | _ => objLoadLoop c rest st'

/-- `Property.load` for each constructor's `load` function: identity,
`dateutil.parser.parse`, `cls.load` (inlined here: `make_object` adopts
the dict, `Object.load` re-assigns declared keys through loader and
setter, the `HasDimensions`/`Series` overrides declare every non-reserved
key as a dimension, and iterating `.items()` of a non-dict raises), or
`ListOf`'s elementwise load (an empty string or dict iterates to an empty
list; a non-empty one yields scalars whose `load` raises). -/
def applyLoadK : LK → Val → Except String Val
  | .lkId, v => .ok v
  | .lkIso, .vstr s => isoParse s
  | .lkIso, _ => .error "TypeError: parser got a non-string"
  | .lkEnt c, .vdict es =>
      match loadStyle c with
      | .plain =>
          match objLoadLoop c es es with
          | .error e => .error e
          | .ok st => .ok (.vent c [] (.vdict st))
      | .dimsLoad =>
          match dimTypeOf c with
          | some dt =>
              match dimsBuild dt es es [] with
              | (st, dims) => .ok (.vent c dims (.vdict st))
          | none => .error "TypeError: missing dimtype"
      | .seriesLoad =>
          match dimTypeOf c with
          | some dt =>
              match seriesBuild dt es es [] with
              | (st, dims) => .ok (.vent c dims (.vdict st))
          | none => .error "TypeError: missing dimtype"
  | .lkEnt _, _ => .error "AttributeError: object has no attribute items"
  | .lkList c, .vlist xs =>
      match loadList c xs with
      | .error e => .error e
      | .ok ys => .ok (.vlist ys)
  | .lkList _, .vstr s =>
      if s.isEmpty then .ok (.vlist [])
      else .error "AttributeError: object has no attribute items"
  | .lkList _, .vdict es =>
      if es.isEmpty then .ok (.vlist [])
      else .error "AttributeError: object has no attribute items"
  | .lkList _, _ => .error "TypeError: object is not iterable"

/-- `ListOf`'s `_list_load`: map the element class's `load` over the list. -/
def loadList (c : Cls) (xs : List Val) : Except String (List Val) :=
  match xs with
  | [] => .ok []
  | x :: rest =>
      match applyLoadK (.lkEnt c) x with
      | .error e => .error e
      | .ok y =>
          match loadList c rest with
          | .error e => .error e
          | .ok ys => .ok (y :: ys)

end

/-- `cls.load(data)`: adopt `data` and rebuild declared structure (the
body lives in `applyLoadK`'s entity case, where `InstanceOf` properties
also dispatch). -/
def entLoad (c : Cls) (v : Val) : Except String Val :=
  applyLoadK (.lkEnt c) v

/-- `util.loads` on an already-decoded JSON tree (the text layer is the
out-of-scope `json` codec): look up the top-level `content-spec`
discriminator, dispatch through the `CONTENT_SPECS` registry, and run the
payload class's `load`; missing key or unregistered value raise
`KeyError`. -/
def unideLoads (d : Val) : Except String Val :=
  match d with
  | .vdict es =>
      match lookupV "content-spec" es with
      | none => .error "KeyError: content-spec"
      | some (.vstr s) =>
          match registry s with
          | some c => entLoad c d
          | none => .error "KeyError: unregistered content-spec"
      | some _ => .error "KeyError: unregistered content-spec"
  | _ => .error "TypeError: not a JSON object"

/-! ### Series and Measurement operations (`measurement.py`) -/

/-- Python truthiness, for `if not self.series.offsets`. -/
def pyFalsy : Val → Bool
  | .vnull => true
  | .vbool b => !b
  | .vint n => n = 0
  | .vfloat q => q = 0
  | .vstr s => s.isEmpty
  | .vdt _ => false
  | .vlist xs => xs.isEmpty
  | .vdict es => es.isEmpty
  | .vent _ _ _ => false

/-- The `for dim in self.dimensions:` loop of `Series.add_sample`:
`getattr(self, dim).append(data.get(dim, None))` — each declared
dimension's array grows by the sample's value for it, or by `None`. -/
def dimsAppend (st : List (String × Val)) (kw : List (String × Val)) :
    List String → Option String × List (String × Val)
  | [] => (none, st)
  | d :: rest =>
      match lookupV d st with
      | some (.vlist ys) =>
          match dimsAppend (setIns d (.vlist (ys ++ [(lookupV d kw).getD .vnull])) st) kw rest with
          | r => r
      | some _ => (some "AttributeError: append", st)
      | none => (some "AttributeError: missing dimension", st)

/-- `Series.add_sample(offset, **data)` from `measurement.py`, acting on
the series' declared dimensions and backing store: append the offset to
the `$_time` column (a property read, memoizing the `None` default on a
miss), *then* assert every keyword names a declared dimension, then
append to every dimension's array. -/
def seriesAddSample (dims : List String) (st : List (String × Val)) (offset : Val)
    (kw : List (String × Val)) : Option String × List (String × Val) :=
  let r := getPropFn "$_time" .pPlain st
  match r.1 with
  | .vlist xs =>
      let st2 := setIns "$_time" (.vlist (xs ++ [offset])) r.2
      if kw.all (fun e => dims.contains e.1) then dimsAppend st2 kw dims
      else (some "AssertionError", st2)
  | _ => (some "AttributeError: append", r.2)

/-- `Measurement.add_sample(ts, **kwargs)` from `measurement.py`, acting
on the measurement's backing store (`ts` is a microsecond timestamp).
When no offsets are recorded yet the entity's own `ts` is set and offset
0 is used; otherwise the offset is the whole-millisecond delta from the
fixed `self.ts` (`days*86400000 + seconds*1000 + microseconds // 1000` of
the normalized timedelta equals the floor of the microsecond delta over
1000, i.e. `Int.fdiv`). -/
def measAddSample (data : Val) (ts : Int) (kw : List (String × Val)) :
    Option String × Val :=
  match data with
  | .vdict st =>
      let rs := getPropFn "series" (.pInstOf .seriesM true) st
      match rs.1 with
      | .vent .seriesM sdims (.vdict sst) =>
          let ro := getPropFn "$_time" .pPlain sst
          if pyFalsy ro.1 then
            match setPropFn .measM "ts" (.pDatetime false) rs.2 (.vdt ts) with
            | (some e, st') => (some e, .vdict st')
            | (none, st2) =>
                let ra := seriesAddSample sdims ro.2 (.vint 0) kw
                (ra.1, .vdict (setIns "series" (.vent .seriesM sdims (.vdict ra.2)) st2))
          else
            let rt := getPropFn "ts" (.pDatetime false) rs.2
            match rt.1 with
            | .vdt t0 =>
                let off : Int := (ts - t0).fdiv 1000
                let ra := seriesAddSample sdims ro.2 (.vint off) kw
                (ra.1, .vdict (setIns "series" (.vent .seriesM sdims (.vdict ra.2)) rt.2))
            | _ => (some "TypeError: unsupported operand", .vdict rt.2)
      | _ => (some "AttributeError: series", .vdict rs.2)
  | _ => (some "TypeError", data)

/-! ### `ProcessPayload` construction (`schema.py` `Object.__new__`,
`process.py` `ProcessPayload.__init__`) -/

/-- The keyword loop of `Object.__new__`: after adopting a fresh empty
store, `setattr(self, name, value)` runs for every keyword argument of
the constructor call, in call order.  A name that matches a declared
property dispatches through its descriptor's `__set__` (convert, check,
store — or raise); any other name becomes a plain instance attribute and
leaves the backing store untouched. -/
def objNew (c : Cls) : List (String × Val) → List (String × Val) →
    Option String × List (String × Val)
  | [], st => (none, st)
  | (k, v) :: rest, st =>
      match lookupP k (clsProps c) with
      | some pc =>
          match setPropFn c k pc st v with
          | (some e, st') => (some e, st')
          | (none, st') => objNew c rest st'
      | none => objNew c rest st

/-- `ProcessPayload.__init__(device, process, part, measurements)` acting
on the store `Object.__new__` hands over: write the discriminator raw
into `_data`, then assign the plain instance attribute `deivce` (a typo —
not the `device` property, so this line never touches the backing store),
then assign `process`, `part` and `measurements` through their property
setters. -/
def processPayloadInit (st0 : List (String × Val))
    (_device process part measurements : Val) : Option String × Val :=
  let st1 := setIns "content-spec"
    (.vstr "urn:spec://eclipse.org/unide/process-message#v2") st0
  match setPropFn .processPayload "process" (.pInstOf .processE false) st1 process with
  | (some e, st) => (some e, .vent .processPayload [] (.vdict st))
  | (none, st2) =>
      match setPropFn .processPayload "part" (.pInstOf .partP false) st2 part with
      | (some e, st) => (some e, .vent .processPayload [] (.vdict st))
      | (none, st3) =>
          match setPropFn .processPayload "measurements" (.pListOf .measP) st3 measurements with
          | (some e, st) => (some e, .vent .processPayload [] (.vdict st))
          | (none, st4) => (none, .vent .processPayload [] (.vdict st4))

/-- The keyword construction `ProcessPayload(device=d, process=p)`:
`Object.__new__` runs first and setattrs both keyword arguments through
their declared properties (storing them in `_data`), then `__init__`
runs on that store with `part` and `measurements` defaulted to `None`. -/
def processPayloadKw (device process : Val) : Option String × Val :=
  match objNew .processPayload [("device", device), ("process", process)] [] with
  | (some e, st) => (some e, .vent .processPayload [] (.vdict st))
  | (none, st1) => processPayloadInit st1 device process .vnull .vnull

/-! ### Observation predicates on values -/

def isNullV : Val → Bool
  | .vnull => true
  | _ => false

def isDictB : Val → Bool
  | .vdict _ => true
  | _ => false

mutual

/-- Every entity in the value graph has a dict-shaped backing store (true
of everything the public API can build; `make_object` can in principle
adopt arbitrary values). -/
def storesAreDicts : Val → Bool
  | .vent _ _ d => isDictB d && storesAreDicts d
  | .vlist xs => storesAreDictsL xs
  | .vdict es => storesAreDictsE es
  | _ => true

def storesAreDictsL : List Val → Bool
  | [] => true
  | x :: xs => storesAreDicts x && storesAreDictsL xs

def storesAreDictsE : List (String × Val) → Bool
  | [] => true
  | (_, v) :: es => storesAreDicts v && storesAreDictsE es

end

mutual

/-- Does a value (in particular, a dumped JSON tree) contain a JSON
object with a `null` field value anywhere? -/
def hasNullField : Val → Bool
  | .vlist xs => hasNullFieldL xs
  | .vdict es => hasNullFieldE es
  | .vent _ _ d => hasNullField d
  | _ => false

def hasNullFieldL : List Val → Bool
  | [] => false
  | x :: xs => hasNullField x || hasNullFieldL xs

def hasNullFieldE : List (String × Val) → Bool
  | [] => false
  | (_, v) :: es => isNullV v || hasNullField v || hasNullFieldE es

end

mutual

/-- A value already in the JSON image: no datetimes and no entities
anywhere (so the JSON encoder and every `load` transform leave it
unchanged). -/
def jsonPure : Val → Bool
  | .vdt _ => false
  | .vent _ _ _ => false
  | .vlist xs => jsonPureL xs
  | .vdict es => jsonPureE es
  | _ => true

def jsonPureL : List Val → Bool
  | [] => true
  | x :: xs => jsonPure x && jsonPureL xs

def jsonPureE : List (String × Val) → Bool
  | [] => true
  | (_, v) :: es => jsonPure v && jsonPureE es

end

/-! ### Basic store lemmas -/

theorem lookupV_setIns_self (k : String) (v : Val) (es : List (String × Val)) :
    lookupV k (setIns k v es) = some v := by
  induction es with
  | nil => simp [setIns, lookupV]
  | cons e tl ih =>
      obtain ⟨k', v'⟩ := e
      by_cases h : k' = k <;> simp [setIns, lookupV, h, ih]

theorem lookupV_setIns_ne {k k' : String} (v : Val) (es : List (String × Val))
    (h : k' ≠ k) : lookupV k (setIns k' v es) = lookupV k es := by
  induction es with
  | nil => simp [setIns, lookupV, h]
  | cons e tl ih =>
      obtain ⟨k'', v''⟩ := e
      by_cases h2 : k'' = k'
      · simp [setIns, lookupV, h2, h]
      · simp only [setIns, if_neg h2]
        by_cases h3 : k'' = k <;> simp [lookupV, h3, ih]

theorem lookupV_eraseKey_ne {k k' : String} (es : List (String × Val))
    (h : k' ≠ k) : lookupV k (eraseKey k' es) = lookupV k es := by
  induction es with
  | nil => simp [eraseKey]
  | cons e tl ih =>
      obtain ⟨k'', v''⟩ := e
      by_cases h2 : k'' = k'
      · subst h2
        have : k'' ≠ k := h
        simp [eraseKey, lookupV, this]
      · by_cases h3 : k'' = k
        · subst h3
          simp [eraseKey, lookupV, h2]
        · simp [eraseKey, lookupV, h2, h3, ih]

theorem lookupV_mem {k : String} {v : Val} :
    ∀ {es : List (String × Val)}, lookupV k es = some v → (k, v) ∈ es := by
  intro es
  induction es with
  | nil => simp [lookupV]
  | cons e tl ih =>
      obtain ⟨k', v'⟩ := e
      by_cases h : k' = k
      · subst h
        simp only [lookupV, if_pos rfl]
        intro hl
        injection hl with hv
        subst hv
        exact List.mem_cons_self _ _
      · simp only [lookupV, if_neg h]
        intro hl
        exact List.mem_cons_of_mem _ (ih hl)

theorem lookupV_isSome_of_mem {k : String} {v : Val} :
    ∀ {es : List (String × Val)}, (k, v) ∈ es → (lookupV k es).isSome := by
  intro es
  induction es with
  | nil => simp
  | cons e tl ih =>
      obtain ⟨k', v'⟩ := e
      intro hm
      by_cases h : k' = k
      · simp [lookupV, h]
      · rcases List.mem_cons.mp hm with heq | hm2
        · rw [Prod.ext_iff] at heq
          exact absurd heq.1.symm h
        · simp only [lookupV, if_neg h]
          exact ih hm2

theorem lookupV_none_iff {k : String} {es : List (String × Val)} :
    lookupV k es = none ↔ k ∉ keysOf es := by
  induction es with
  | nil => simp [lookupV, keysOf]
  | cons e tl ih =>
      obtain ⟨k', v'⟩ := e
      by_cases h : k' = k
      · simp [lookupV, keysOf, h]
      · simp [lookupV, keysOf, h, ih]
        tauto

theorem mem_keysOf_of_lookupV {k : String} {v : Val} {es : List (String × Val)}
    (h : lookupV k es = some v) : k ∈ keysOf es := by
  have := lookupV_mem h
  simp [keysOf]
  exact ⟨v, this⟩

theorem lookupV_of_mem_nodup {k : String} {v : Val} {es : List (String × Val)}
    (hnd : (keysOf es).Nodup) (hm : (k, v) ∈ es) : lookupV k es = some v := by
  induction es with
  | nil => simp at hm
  | cons e tl ih =>
      obtain ⟨k', v'⟩ := e
      simp only [keysOf, List.map_cons, List.nodup_cons] at hnd
      rcases List.mem_cons.mp hm with heq | hm2
      · cases heq
        simp [lookupV]
      · have hk : k' ≠ k := by
          rintro rfl
          exact hnd.1 (List.mem_map_of_mem Prod.fst hm2)
        simp only [lookupV, if_neg hk]
        exact ih hnd.2 hm2

theorem setIns_append_fresh {k : String} (v w : Val)
    {pre : List (String × Val)} (tl : List (String × Val))
    (h : k ∉ keysOf pre) :
    setIns k v (pre ++ (k, w) :: tl) = pre ++ (k, v) :: tl := by
  induction pre with
  | nil => simp [setIns]
  | cons e p ih =>
      obtain ⟨k', v'⟩ := e
      have hne : k' ≠ k := by
        intro hE
        exact h (by simp [keysOf, hE])
      have hp : k ∉ keysOf p := by
        intro hm
        exact h (by simp [keysOf] at hm ⊢; tauto)
      simp only [List.cons_append, setIns, if_neg hne, List.append_eq]
      rw [ih hp]

theorem lookupV_dumpEntries (k : String) :
    ∀ (es : List (String × Val)),
      lookupV k (dumpEntries es) = (lookupV k es).map dumpVal := by
  intro es
  induction es with
  | nil => simp [dumpEntries, lookupV]
  | cons e tl ih =>
      obtain ⟨k', v'⟩ := e
      by_cases h : k' = k <;> simp [dumpEntries, lookupV, h, ih]

theorem keysOf_dumpEntries : ∀ (es : List (String × Val)),
    keysOf (dumpEntries es) = keysOf es := by
  intro es
  induction es with
  | nil => simp [dumpEntries, keysOf]
  | cons e tl ih =>
      obtain ⟨k', v'⟩ := e
      simp [dumpEntries, keysOf] at *
      exact ih

/-- Assigning null through a property setter always leaves the store with
the key erased, whether or not the not-nullable error is raised. -/
theorem setProp_null_erase (c : Cls) (name : String) (pc : PCtor)
    (st : List (String × Val)) :
    (setPropFn c name pc st .vnull).2 = eraseKey name st := by
  simp only [setPropFn, checkFn]
  split <;> simp

/-! ### C5: failed assignments and the backing store -/

/-- C5 counterexample: assigning null to the required `Device.deviceID`
raises the not-nullable validation error, yet the key has been removed
from the backing store: the entity is NOT left in its previous state. -/
theorem c5_counterexample :
    setPropFn .device "deviceID" (.pString (some 36) none false)
      [("deviceID", .vstr "abc")] .vnull =
    (some (nullMsg "Device.deviceID"), []) := by
  simp [setPropFn, checkFn, toNullable, clsName, eraseKey, nullMsg,
    String.intercalate, String.intercalate.go]

/-- C5 (amended): a failing assignment of a non-null value leaves the
backing store unchanged (conversion errors and validation errors alike),
but an assignment of null always removes the key from the store — even
when it raises the not-nullable error. -/
theorem c5_theorem :
    ∀ (c : Cls) (name : String) (pc : PCtor) (st : List (String × Val)),
      (∀ v e st', v ≠ Val.vnull → setPropFn c name pc st v = (some e, st') →
        st' = st) ∧
      (∀ r st', setPropFn c name pc st .vnull = (r, st') →
        st' = eraseKey name st) := by
  intro c name pc st
  constructor
  · intro v e st' hv h
    cases v
    case vnull => exact absurd rfl hv
    all_goals
      simp only [setPropFn] at h
      repeat' split at h
      all_goals (simp at h; try exact h.2.symm)
  · intro r st' h
    have := setProp_null_erase c name pc st
    rw [h] at this
    exact this

/-- C5 witness: a wrong-type assignment to `Device.deviceID` raises and
leaves the store unchanged. -/
theorem c5_witness :
    setPropFn .device "deviceID" (.pString (some 36) none false)
      [("deviceID", .vstr "abc")] (.vint 5) =
      (some (wrongTypeMsg "Device.deviceID"), [("deviceID", .vstr "abc")]) ∧
    ([("deviceID", Val.vstr "abc")] : List (String × Val)) =
      [("deviceID", .vstr "abc")] := by
  have hcalc : setPropFn .device "deviceID" (.pString (some 36) none false)
      [("deviceID", .vstr "abc")] (.vint 5) =
      (some (wrongTypeMsg "Device.deviceID"), [("deviceID", .vstr "abc")]) := by
    simp [setPropFn, checkFn, preStages, typeStage, lenStage, oneofStage,
      applyConv, toConv, pyToString, toTypes, isinst, clsName, wrongTypeMsg,
      String.intercalate, String.intercalate.go]
  exact ⟨hcalc, (c5_theorem .device "deviceID" (.pString (some 36) none false)
    [("deviceID", .vstr "abc")]).1 (.vint 5) (wrongTypeMsg "Device.deviceID")
    [("deviceID", .vstr "abc")] (by simp) hcalc⟩

/-! ### C4: null stripping and serialized null fields -/

theorem szV_list (xs : List Val) : sizeOf xs < sizeOf (Val.vlist xs) := by
  simp only [Val.vlist.sizeOf_spec]
  omega

theorem szV_dict (es : List (String × Val)) : sizeOf es < sizeOf (Val.vdict es) := by
  simp only [Val.vdict.sizeOf_spec]
  omega

theorem szV_ent (c : Cls) (dims : List String) (d : Val) :
    sizeOf d < sizeOf (Val.vent c dims d) := by
  simp only [Val.vent.sizeOf_spec]
  omega

theorem szL_head (x : Val) (tl : List Val) : sizeOf x < sizeOf (x :: tl) := by
  simp only [List.cons.sizeOf_spec]
  omega

theorem szL_tail (x : Val) (tl : List Val) : sizeOf tl < sizeOf (x :: tl) := by
  simp only [List.cons.sizeOf_spec]
  omega

theorem szE_head (k : String) (v : Val) (tl : List (String × Val)) :
    sizeOf v < sizeOf ((k, v) :: tl) := by
  simp only [List.cons.sizeOf_spec, Prod.mk.sizeOf_spec]
  omega

theorem szE_tail (k : String) (v : Val) (tl : List (String × Val)) :
    sizeOf tl < sizeOf ((k, v) :: tl) := by
  simp only [List.cons.sizeOf_spec]
  omega

/-- If a value's entity stores are dict-shaped, dumping cannot turn a
non-null value into null. -/
theorem isNullV_dumpVal {v : Val} (h : storesAreDicts v = true) :
    isNullV (dumpVal v) = isNullV v := by
  cases v with
  | vent c dims d =>
      simp only [storesAreDicts, Bool.and_eq_true] at h
      cases d <;> simp_all [isDictB, dumpVal, isNullV]
  | _ => simp [dumpVal, isNullV]

/-- The JSON encoder neither creates nor destroys null field values on
value graphs with dict-shaped entity stores. -/
theorem hasNullField_dump_aux : ∀ n : Nat,
    (∀ v : Val, sizeOf v ≤ n → storesAreDicts v = true →
      hasNullField (dumpVal v) = hasNullField v) ∧
    (∀ xs : List Val, sizeOf xs ≤ n → storesAreDictsL xs = true →
      hasNullFieldL (dumpList xs) = hasNullFieldL xs) ∧
    (∀ es : List (String × Val), sizeOf es ≤ n → storesAreDictsE es = true →
      hasNullFieldE (dumpEntries es) = hasNullFieldE es) := by
  intro n
  induction n using Nat.strong_induction_on with
  | _ n IH =>
    refine ⟨?_, ?_, ?_⟩
    · intro v hs hw
      cases v with
      | vlist xs =>
          have hlt : sizeOf xs < n := by
            have := szV_list xs
            omega
          simp only [storesAreDicts] at hw
          simpa [dumpVal, hasNullField] using
            (IH (sizeOf xs) hlt).2.1 xs le_rfl hw
      | vdict es =>
          have hlt : sizeOf es < n := by
            have := szV_dict es
            omega
          simp only [storesAreDicts] at hw
          simpa [dumpVal, hasNullField] using
            (IH (sizeOf es) hlt).2.2 es le_rfl hw
      | vent c dims d =>
          have hlt : sizeOf d < n := by
            have := szV_ent c dims d
            omega
          simp only [storesAreDicts, Bool.and_eq_true] at hw
          simpa [dumpVal, hasNullField] using
            (IH (sizeOf d) hlt).1 d le_rfl hw.2
      | _ => simp [dumpVal, hasNullField]
    · intro xs hs hw
      cases xs with
      | nil => simp [dumpList, hasNullFieldL]
      | cons x tl =>
          have hx : sizeOf x < n := by
            have := szL_head x tl
            omega
          have htl : sizeOf tl < n := by
            have := szL_tail x tl
            omega
          simp only [storesAreDictsL, Bool.and_eq_true] at hw
          simp only [dumpList, hasNullFieldL]
          rw [(IH (sizeOf x) hx).1 x le_rfl hw.1,
            (IH (sizeOf tl) htl).2.1 tl le_rfl hw.2]
    · intro es hs hw
      cases es with
      | nil => simp [dumpEntries, hasNullFieldE]
      | cons e tl =>
          obtain ⟨k, v⟩ := e
          have hv : sizeOf v < n := by
            have := szE_head k v tl
            omega
          have htl : sizeOf tl < n := by
            have := szE_tail k v tl
            omega
          simp only [storesAreDictsE, Bool.and_eq_true] at hw
          simp only [dumpEntries, hasNullFieldE]
          rw [(IH (sizeOf v) hv).1 v le_rfl hw.1,
            (IH (sizeOf tl) htl).2.2 tl le_rfl hw.2,
            isNullV_dumpVal hw.1]

/-- C4 counterexample: `Limit(upperError=1.0)` has store
`{upperError: 1.0}`; merely *reading* the never-set `lowerError` through
the public attribute API memoizes the `None` default into the backing
store, and serializing the entity then emits a null field value — refuting
"serialization never emits a null field value" for API-reachable graphs. -/
theorem c4_counterexample :
    getPropFn "lowerError" (.pFloat true) [("upperError", .vfloat 1)] =
      (.vnull, [("upperError", .vfloat 1), ("lowerError", .vnull)]) ∧
    hasNullField (dumpVal (.vent .limitM []
      (.vdict [("upperError", .vfloat 1), ("lowerError", .vnull)]))) = true := by
  constructor
  · simp [getPropFn, lookupV, defaultVal, toDefault]
  · simp [dumpVal, dumpEntries, hasNullField, hasNullFieldE, isNullV]

/-- C4 (amended): setting a declared field to null does remove the key
from the backing store (even when the not-nullable check raises); and
serialization introduces no null fields of its own — an entity graph with
dict-shaped stores free of null values serializes without null field
values.  The exception the counterexample forces: reading an unset field
memoizes its `None` default into the store, after which serialization
emits null. -/
theorem c4_theorem :
    (∀ (c : Cls) (name : String) (pc : PCtor) (st : List (String × Val)),
        (setPropFn c name pc st .vnull).2 = eraseKey name st) ∧
    (∀ v : Val, storesAreDicts v = true → hasNullField v = false →
        hasNullField (dumpVal v) = false) := by
  constructor
  · exact setProp_null_erase
  · intro v hw h
    rw [(hasNullField_dump_aux (sizeOf v)).1 v le_rfl hw]
    exact h

/-- C4 witness: a null-free `Limit` store serializes without null fields,
and a null assignment erases the key. -/
theorem c4_witness :
    hasNullField (.vent .limitM [] (.vdict [("upperError", .vfloat 1)])) = false ∧
    hasNullField (dumpVal (.vent .limitM [] (.vdict [("upperError", .vfloat 1)]))) = false ∧
    (setPropFn .limitM "upperError" (.pFloat true)
      [("upperError", .vfloat 1)] .vnull).2 =
        eraseKey "upperError" [("upperError", .vfloat 1)] := by
  have h0 : hasNullField (.vent .limitM [] (.vdict [("upperError", .vfloat 1)])) = false := by
    simp [hasNullField, hasNullFieldE, isNullV]
  have hw : storesAreDicts (.vent .limitM [] (.vdict [("upperError", .vfloat 1)])) = true := by
    simp [storesAreDicts, storesAreDictsE, isDictB]
  exact ⟨h0, c4_theorem.2 _ hw h0, c4_theorem.1 .limitM "upperError" (.pFloat true)
    [("upperError", .vfloat 1)]⟩

/-! ### C3: missing required fields and `problems()` -/

theorem clsProps_names_nodup (c : Cls) : ((clsProps c).map Prod.fst).Nodup := by
  cases c <;> simp [clsProps, resultProp, codeProp]

theorem lookupP_isSome_of_mem {name : String} {pc : PCtor} :
    ∀ {props : List (String × PCtor)}, (name, pc) ∈ props →
      (lookupP name props).isSome := by
  intro props
  induction props with
  | nil => simp
  | cons e tl ih =>
      obtain ⟨n0, pc0⟩ := e
      intro hm
      by_cases h : n0 = name
      · simp [lookupP, h]
      · rcases List.mem_cons.mp hm with heq | hm2
        · rw [Prod.ext_iff] at heq
          exact absurd heq.1.symm h
        · simp only [lookupP, if_neg h]
          exact ih hm2

theorem lookupP_cs_none (c : Cls) : lookupP "content-spec" (clsProps c) = none := by
  cases c <;> simp [clsProps, lookupP, resultProp, codeProp]

theorem checkFn_null (own name : String) (pc : PCtor) :
    checkFn own name pc .vnull =
      .ok (if toNullable pc then [] else [nullMsg (own ++ "." ++ name)]) := by
  simp [checkFn]

theorem lookupP_of_mem_nodup {name : String} {pc : PCtor}
    {props : List (String × PCtor)} (hnd : (props.map Prod.fst).Nodup)
    (hm : (name, pc) ∈ props) : lookupP name props = some pc := by
  induction props with
  | nil => simp at hm
  | cons e tl ih =>
      obtain ⟨n0, pc0⟩ := e
      simp only [List.map_cons, List.nodup_cons] at hnd
      rcases List.mem_cons.mp hm with heq | hm2
      · rw [Prod.ext_iff] at heq
        obtain ⟨h1, h2⟩ := heq
        simp only at h1 h2
        subst h1
        subst h2
        simp [lookupP]
      · have hne : n0 ≠ name := by
          rintro rfl
          exact hnd.1 (List.mem_map_of_mem Prod.fst hm2)
        simp only [lookupP, if_neg hne]
        exact ih hnd.2 hm2

/-- The per-entry check table holds exactly the check of the stored value
for each declared key. -/
theorem lookupC_checkEntries (c : Cls) {name : String} {pc : PCtor}
    (hp : lookupP name (clsProps c) = some pc) :
    ∀ es : List (String × Val),
      lookupC name (checkEntries c es) =
        (lookupV name es).map (checkFn (clsName c) name pc) := by
  intro es
  induction es with
  | nil => simp [checkEntries, lookupV, lookupC]
  | cons e tl ih =>
      obtain ⟨k, v⟩ := e
      by_cases hk : k = name
      · subst hk
        simp [checkEntries, hp, lookupV, lookupC]
      · simp only [checkEntries]
        cases hlk : lookupP k (clsProps c) with
        | none => simp [lookupV, hk, ih]
        | some pc' => simp [lookupC, lookupV, hk, ih]

/-- If a consumed key's recorded check produced an error list, those
errors are in the loop's output. -/
theorem probLoopA_mem :
    ∀ (props : List (String × PCtor)) (keys : List String)
      (checks : List (String × Except String (List String)))
      (name : String) (pc : PCtor) (errsN errs : List String)
      (rem : List String) (m : String),
      (name, pc) ∈ props → (props.map Prod.fst).Nodup →
      name ∈ keys → lookupC name checks = some (.ok errsN) → m ∈ errsN →
      probLoopA checks props keys = .ok (errs, rem) →
      m ∈ errs := by
  intro props
  induction props with
  | nil =>
      intro keys checks name pc errsN errs rem m hm
      simp at hm
  | cons e rest ih =>
      obtain ⟨n0, pc0⟩ := e
      intro keys checks name pc errsN errs rem m hm hnd hk hc hmem h
      simp only [List.map_cons, List.nodup_cons] at hnd
      rcases List.mem_cons.mp hm with heq | hm2
      · rw [Prod.ext_iff] at heq
        obtain ⟨h1, _⟩ := heq
        simp only at h1
        subst h1
        have hcont : keys.contains name = true := List.elem_eq_true_of_mem hk
        simp only [probLoopA, hcont, if_pos, hc] at h
        split at h
        · exact absurd h (by simp)
        · simp only [Except.ok.injEq, Prod.mk.injEq] at h
          obtain ⟨h2, _⟩ := h
          subst h2
          simp [hmem]
      · have hne : name ≠ n0 := by
          rintro rfl
          exact hnd.1 (List.mem_map_of_mem Prod.fst hm2)
        simp only [probLoopA] at h
        split at h
        · split at h
          · exact absurd h (by simp)
          · split at h
            · exact absurd h (by simp)
            · rename_i heq2
              simp only [Except.ok.injEq, Prod.mk.injEq] at h
              obtain ⟨h1, _⟩ := h
              subst h1
              have := ih (keys.erase n0) checks name pc errsN _ _ m hm2 hnd.2
                ((List.mem_erase_of_ne hne).mpr hk) hc hmem heq2
              simp [this]
          · exact absurd h (by simp)
        · exact ih keys checks name pc errsN errs rem m hm2 hnd.2 hk hc hmem h

/-- C3 counterexample: `Device` declares the required (`null=False`)
`deviceID` property; on a store where the key is absent entirely (as
`Device.load({})` builds), `problems()` returns the empty list — no error
for the missing required field is reported. -/
theorem c3_counterexample :
    lookupP "deviceID" (clsProps .device) = some (.pString (some 36) none false) ∧
    toNullable (.pString (some 36) none false) = false ∧
    lookupV "deviceID" ([] : List (String × Val)) = none ∧
    problemsE .device [] (.vdict []) = .ok [] := by
  refine ⟨rfl, rfl, rfl, rfl⟩

theorem runProblemsA_ok {c : Cls} {dims : List String}
    {checks : List (String × Except String (List String))}
    {initErrs keys : List String} {errs : List String}
    (h : runProblemsA c dims checks initErrs keys = .ok errs) :
    ∃ perrs rem, probLoopA checks (clsProps c) keys = .ok (perrs, rem) ∧
      errs = initErrs ++ perrs ++
        (rem.filter (fun k => !(excessOK c dims k))).map (unknownMsg c) := by
  simp only [runProblemsA] at h
  split at h
  · exact absurd h (by simp)
  · rename_i heq
    simp only [Except.ok.injEq] at h
    exact ⟨_, _, heq, h.symm⟩

/-- C3 (amended): `problems()` reports the missing/required error only
when the required property's key is *present with a null value*; a key
absent from the backing store is silently skipped by the property loop,
so a missing required field goes unreported (the counterexample).  For a
present null, the not-nullable error is in the returned list. -/
theorem c3_theorem (c : Cls) (dims : List String) (es : List (String × Val))
    (name : String) (pc : PCtor) (errs : List String)
    (hm : (name, pc) ∈ clsProps c) (hnn : toNullable pc = false)
    (hl : lookupV name es = some .vnull)
    (h : problemsE c dims (.vdict es) = .ok errs) :
    nullMsg (clsName c ++ "." ++ name) ∈ errs := by
  have hkeys : name ∈ keysOf es := mem_keysOf_of_lookupV hl
  have hncs : name ≠ "content-spec" := by
    rintro rfl
    have h1 := lookupP_isSome_of_mem hm
    rw [lookupP_cs_none c] at h1
    simp at h1
  have hp : lookupP name (clsProps c) = some pc :=
    lookupP_of_mem_nodup (clsProps_names_nodup c) hm
  have hc : lookupC name (checkEntries c es) =
      some (.ok [nullMsg (clsName c ++ "." ++ name)]) := by
    rw [lookupC_checkEntries c hp es, hl]
    simp [checkFn_null, hnn]
  cases hcs : csOf c with
  | none =>
      simp only [problemsE, hcs] at h
      obtain ⟨perrs, rem, heq, rfl⟩ := runProblemsA_ok h
      have := probLoopA_mem (clsProps c) (keysOf es) (checkEntries c es) name pc
        _ perrs rem (nullMsg (clsName c ++ "." ++ name)) hm
        (clsProps_names_nodup c) hkeys hc (by simp) heq
      simp [this]
  | some cs =>
      simp only [problemsE, hcs] at h
      by_cases hcont : (keysOf es).contains "content-spec" = true
      · rw [if_pos hcont] at h
        obtain ⟨perrs, rem, heq, rfl⟩ := runProblemsA_ok h
        have := probLoopA_mem (clsProps c) ((keysOf es).erase "content-spec")
          (checkEntries c es) name pc _ perrs rem
          (nullMsg (clsName c ++ "." ++ name)) hm (clsProps_names_nodup c)
          ((List.mem_erase_of_ne hncs).mpr hkeys) hc (by simp) heq
        simp [this]
      · rw [if_neg hcont] at h
        exact absurd h (by simp)

/-- C3 witness: on a Device store holding `deviceID: null`, the returned
problem list contains the not-nullable error. -/
theorem c3_witness :
    nullMsg "Device.deviceID" ∈ [nullMsg "Device.deviceID"] := by
  have h : problemsE .device [] (.vdict [("deviceID", .vnull)]) =
      .ok [nullMsg "Device.deviceID"] := rfl
  have := c3_theorem .device [] [("deviceID", .vnull)] "deviceID"
    (.pString (some 36) none false) [nullMsg "Device.deviceID"]
    (by simp [clsProps]) rfl rfl h
  simp only [clsName] at this
  exact this

/-! ### C6: discriminator handling in `problems()` -/

theorem probLoopA_rem_subset :
    ∀ (props : List (String × PCtor))
      (checks : List (String × Except String (List String)))
      (keys perrs rem : List String),
      probLoopA checks props keys = .ok (perrs, rem) → rem ⊆ keys := by
  intro props
  induction props with
  | nil =>
      intro checks keys perrs rem h
      simp only [probLoopA, Except.ok.injEq, Prod.mk.injEq] at h
      rw [← h.2]
      exact List.Subset.refl _
  | cons e rest ih =>
      obtain ⟨n0, pc0⟩ := e
      intro checks keys perrs rem h
      simp only [probLoopA] at h
      split at h
      · split at h
        · exact absurd h (by simp)
        · split at h
          · exact absurd h (by simp)
          · rename_i heq2
            simp only [Except.ok.injEq, Prod.mk.injEq] at h
            obtain ⟨_, h2⟩ := h
            subst h2
            exact (ih checks (keys.erase n0) _ _ heq2).trans
              (List.erase_subset _ _)
        · exact absurd h (by simp)
      · exact ih checks keys perrs rem h

/-- C6 counterexample: on a `MeasurementPayload` whose store lacks the
`content-spec` key entirely, `problems()` does not return an error list at
all — `existing_fields.remove("content-spec")` raises `KeyError`. -/
theorem c6_counterexample :
    csOf Cls.measurementPayload =
      some "urn:spec://eclipse.org/unide/measurement-message#v2" ∧
    lookupV "content-spec" ([] : List (String × Val)) = none ∧
    problemsE .measurementPayload [] (.vdict []) =
      .error "KeyError: content-spec" := by
  exact ⟨rfl, rfl, rfl⟩

/-- C6 (amended): for a discriminator-bearing class, when the
`content-spec` key is *present* with a value failing the discriminator
check, `problems()` (when it returns) returns a list containing the
"wrong or missing" error, and the key is consumed: it is never among the
keys still to account for at the unknown-field stage.  When the key is
*missing entirely*, `problems()` does not return a list — it raises
`KeyError` (the counterexample). -/
theorem c6_theorem (c : Cls) (cs : String) (dims : List String)
    (es : List (String × Val)) (hcs : csOf c = some cs) :
    (lookupV "content-spec" es = none →
      problemsE c dims (.vdict es) = .error "KeyError: content-spec") ∧
    (∀ v errs, lookupV "content-spec" es = some v →
      csErrList c cs es = [csMsg c] →
      problemsE c dims (.vdict es) = .ok errs → csMsg c ∈ errs) ∧
    ((keysOf es).Nodup → ∀ perrs rem,
      probLoopA (checkEntries c es) (clsProps c)
        ((keysOf es).erase "content-spec") = .ok (perrs, rem) →
      "content-spec" ∉ rem) := by
  refine ⟨?_, ?_, ?_⟩
  · intro hnone
    have hncont : ¬ (keysOf es).contains "content-spec" = true := by
      simpa using lookupV_none_iff.mp hnone
    simp only [problemsE, hcs]
    rw [if_neg hncont]
  · intro v errs hsome hwrong h
    have hcont : (keysOf es).contains "content-spec" = true :=
      List.elem_eq_true_of_mem (mem_keysOf_of_lookupV hsome)
    simp only [problemsE, hcs, if_pos hcont] at h
    obtain ⟨perrs, rem, _, rfl⟩ := runProblemsA_ok h
    rw [hwrong]
    simp
  · intro hnd perrs rem heq
    intro hmem
    have hsub := probLoopA_rem_subset (clsProps c) (checkEntries c es)
      ((keysOf es).erase "content-spec") perrs rem heq
    exact (hnd.not_mem_erase) (hsub hmem)

/-- C6 witness: a payload store with a wrong `content-spec` value gets the
discriminator error in the returned list, and the key never reaches the
unknown-field stage. -/
theorem c6_witness :
    csMsg .measurementPayload ∈ [csMsg .measurementPayload] ∧
    ¬ ("content-spec" ∈ ([] : List String)) := by
  have hth := c6_theorem .measurementPayload
    "urn:spec://eclipse.org/unide/measurement-message#v2" []
    [("content-spec", .vstr "nope")] rfl
  refine ⟨?_, ?_⟩
  · exact hth.2.1 (.vstr "nope") [csMsg .measurementPayload] rfl rfl rfl
  · exact hth.2.2 (by decide) [] [] rfl

/-! ### C7: the `Property.check` pipeline -/

/-- Modelled from the spec: step 5 of the validate pipeline — if the value
exposes a `problems`-style validator (it is a nested entity), delegate and
merge its errors; otherwise no further check applies. -/
def nestedStep (v : Val) : Except String (List String) :=
  match v with
  | .vent c dims d => problemsE c dims d
  | _ => .ok []

/-- Modelled from the spec: step 4 then step 5 — the enumeration check
errors and stops if the value is not a member of the allowed set. -/
def enumNestedSteps (fieldname : String) (pc : PCtor) (v : Val) :
    Except String (List String) :=
  match toOneof pc with
  | some os =>
      if memOneof os v then nestedStep v
      else .ok [notOneofMsg os fieldname]
  | none => nestedStep v

/-- Modelled from the spec (section 4.1 `validate`): the five-step
short-circuiting pipeline — null gate, then type-check, length-check,
enumeration-check and nested-validation, stopping at the first check that
matches, so only one of steps 2-5 ever fires. -/
def checkSpec (own name : String) (pc : PCtor) (v : Val) :
    Except String (List String) :=
  let fieldname := own ++ "." ++ name
  match v with
  | .vnull => .ok (if toNullable pc then [] else [nullMsg fieldname])
  | _ =>
      if (match toTypes pc with
          | some tk => !(isinst tk v)
          | none => false) then .ok [wrongTypeMsg fieldname]
      else
        match toBound pc with
        | some b =>
            match pyLen v with
            | .error e => .error e
            | .ok n =>
                if b < n then .ok [tooLongMsg fieldname b]
                else enumNestedSteps fieldname pc v
        | none => enumNestedSteps fieldname pc v

theorem oneof_tail (pc : PCtor) (f : String) (v : Val) :
    (match (Except.ok (oneofStage pc f v) : Except String (Option String)) with
      | .error e => (.error e : Except String (List String))
      | .ok (some m) => .ok [m]
      | .ok none => nestedStep v) = enumNestedSteps f pc v := by
  unfold enumNestedSteps
  cases ho : toOneof pc with
  | none => simp only [oneofStage, ho]
  | some os =>
      by_cases hm : memOneof os v
      · simp only [oneofStage, ho, hm, if_true]
      · simp only [oneofStage, ho, hm, Bool.false_eq_true, if_false]

theorem stages_eq (pc : PCtor) (f : String) (v : Val) :
    (match preStages pc f v with
      | .error e => (.error e : Except String (List String))
      | .ok (some m) => .ok [m]
      | .ok none => nestedStep v) =
    (if (match toTypes pc with
        | some tk => !(isinst tk v)
        | none => false) then .ok [wrongTypeMsg f]
     else
       match toBound pc with
       | some b =>
           match pyLen v with
           | .error e => (.error e : Except String (List String))
           | .ok n =>
               if b < n then .ok [tooLongMsg f b]
               else enumNestedSteps f pc v
       | none => enumNestedSteps f pc v) := by
  have htail := oneof_tail pc f v
  cases htk : toTypes pc with
  | some tk =>
      by_cases hi : isinst tk v
      · simp only [preStages, typeStage, htk, hi, if_pos, Bool.not_true,
          Bool.false_eq_true, if_false]
        cases hb : toBound pc with
        | none =>
            simp only [lenStage, hb]
            exact htail
        | some b =>
            cases hl : pyLen v with
            | error e => simp only [lenStage, hb, hl]
            | ok n =>
                by_cases hn : b < n
                · simp only [lenStage, hb, hl, if_pos hn]
                · simp only [lenStage, hb, hl, if_neg hn]
                  exact htail
      · have hif : isinst tk v = false := by
          cases hx : isinst tk v
          · rfl
          · exact absurd hx hi
        simp only [preStages, typeStage, htk, hif, Bool.false_eq_true, if_false,
          Bool.not_false, if_true]
  | none =>
      simp only [preStages, typeStage, htk, Bool.false_eq_true, if_false]
      cases hb : toBound pc with
      | none =>
          simp only [lenStage, hb]
          exact htail
      | some b =>
          cases hl : pyLen v with
          | error e => simp only [lenStage, hb, hl]
          | ok n =>
              by_cases hn : b < n
              · simp only [lenStage, hb, hl, if_pos hn]
              · simp only [lenStage, hb, hl, if_neg hn]
                exact htail

/-- C7: `Property.check` implements exactly the spec's short-circuiting
pipeline — on null, the not-nullable error alone; otherwise at most one of
type/length/enum/nested fires, the first that matches.  The second
conjunct exhibits the claim's example: a too-long string of valid type
that is also outside the enumeration gets only the length error. -/
theorem c7_theorem :
    (∀ (own name : String) (pc : PCtor) (v : Val),
      checkFn own name pc v = checkSpec own name pc v) ∧
    checkFn "T" "f" (.pString (some 4) (some ["SINGLE", "BATCH"]) true)
      (.vstr "NEITHER") = .ok [tooLongMsg "T.f" 4] := by
  constructor
  · intro own name pc v
    cases v
    case vnull => rfl
    all_goals exact stages_eq pc (own ++ "." ++ name) _
  · rfl

/-! ### C8: `Series.add_sample` and the equal-lengths invariant -/

theorem dimsAppend_spec (kw : List (String × Val)) :
    ∀ (ds : List String) (st : List (String × Val)),
      ds.Nodup →
      (∀ d ∈ ds, ∃ ys : List Val, lookupV d st = some (.vlist ys)) →
      (dimsAppend st kw ds).1 = none ∧
      (∀ d ∈ ds, ∀ ys : List Val, lookupV d st = some (.vlist ys) →
          lookupV d (dimsAppend st kw ds).2
            = some (.vlist (ys ++ [(lookupV d kw).getD .vnull]))) ∧
      (∀ k, k ∉ ds → lookupV k (dimsAppend st kw ds).2 = lookupV k st) := by
  intro ds
  induction ds with
  | nil =>
      intro st _ _
      refine ⟨rfl, ?_, ?_⟩
      · intro d hd
        simp at hd
      · intro k _
        rfl
  | cons d rest ih =>
      intro st hnd hex
      obtain ⟨ys, hys⟩ := hex d (List.mem_cons_self d rest)
      have hndr : rest.Nodup := (List.nodup_cons.mp hnd).2
      have hdnr : d ∉ rest := (List.nodup_cons.mp hnd).1
      have hpres : ∀ k, k ≠ d →
          lookupV k (setIns d (.vlist (ys ++ [(lookupV d kw).getD .vnull])) st)
            = lookupV k st := by
        intro k hk
        exact lookupV_setIns_ne _ _ (Ne.symm hk)
      have hex' : ∀ e ∈ rest, ∃ zs : List Val,
          lookupV e (setIns d (.vlist (ys ++ [(lookupV d kw).getD .vnull])) st)
            = some (.vlist zs) := by
        intro e he
        obtain ⟨zs, hz⟩ := hex e (List.mem_cons_of_mem d he)
        exact ⟨zs, by rw [hpres e (fun h => hdnr (h ▸ he)), hz]⟩
      obtain ⟨h1, h2, h3⟩ :=
        ih (setIns d (.vlist (ys ++ [(lookupV d kw).getD .vnull])) st) hndr hex'
      have hred : dimsAppend st kw (d :: rest)
          = dimsAppend (setIns d (.vlist (ys ++ [(lookupV d kw).getD .vnull])) st)
              kw rest := by
        simp only [dimsAppend, hys]
      refine ⟨by rw [hred]; exact h1, ?_, ?_⟩
      · intro e he zs hz
        rw [hred]
        rcases List.mem_cons.mp he with rfl | he'
        · rw [hys] at hz
          have hzy : ys = zs := by
            simpa using hz
          subst hzy
          rw [h3 e hdnr]
          exact lookupV_setIns_self _ _ _
        · have hne : e ≠ d := fun h => hdnr (h ▸ he')
          exact h2 e he' zs (by rw [hpres e hne, hz])
      · intro k hk
        rw [hred]
        have hk1 : k ≠ d := fun h => hk (h ▸ List.mem_cons_self d rest)
        have hk2 : k ∉ rest := fun h => hk (List.mem_cons_of_mem d h)
        rw [h3 k hk2, hpres k hk1]

/-- C8 counterexample: calling `add_sample` with an undeclared dimension
name does raise the usage `AssertionError`, but `self.offsets.append(offset)`
has already run before the `assert`, so the call leaves `$_time` with one
more element (length 1) than the declared dimension `temperature`
(length 0) — the equal-lengths invariant does NOT hold after this call,
refuting "after any call to add_sample ... lengths are again equal". -/
theorem c8_counterexample :
    (seriesAddSample ["temperature"]
        [("$_time", .vlist []), ("temperature", .vlist [])]
        (.vint 0) [("pressure", .vint 1)]).1 = some "AssertionError" ∧
    lookupV "$_time" (seriesAddSample ["temperature"]
        [("$_time", .vlist []), ("temperature", .vlist [])]
        (.vint 0) [("pressure", .vint 1)]).2 = some (.vlist [.vint 0]) ∧
    lookupV "temperature" (seriesAddSample ["temperature"]
        [("$_time", .vlist []), ("temperature", .vlist [])]
        (.vint 0) [("pressure", .vint 1)]).2 = some (.vlist []) :=
  ⟨rfl, rfl, rfl⟩

/-- C8 (amended): when every keyword of the call names a declared
dimension, `add_sample` succeeds, appends the offset to `$_time`, and
appends to every declared dimension's array its value from the call or
null when not provided, so all arrays grow to length n+1 together.  But
when a keyword names an undeclared dimension, the call fails with the
usage `AssertionError` *after* having appended the offset: `$_time` grows
to n+1 while every declared dimension's array stays at length n, so the
equal-lengths invariant is broken rather than preserved. -/
theorem c8_theorem (dims : List String) (st : List (String × Val))
    (ts0 : List Val) (offset : Val) (kw : List (String × Val))
    (hnd : dims.Nodup) (hts : "$_time" ∉ dims)
    (htl : lookupV "$_time" st = some (.vlist ts0))
    (harr : ∀ d ∈ dims, ∃ ys : List Val,
        lookupV d st = some (.vlist ys) ∧ ys.length = ts0.length) :
    (kw.all (fun e => dims.contains e.1) = true →
      (seriesAddSample dims st offset kw).1 = none ∧
      lookupV "$_time" (seriesAddSample dims st offset kw).2
        = some (.vlist (ts0 ++ [offset])) ∧
      ∀ d ∈ dims, ∃ ys : List Val,
        lookupV d st = some (.vlist ys) ∧
        lookupV d (seriesAddSample dims st offset kw).2
          = some (.vlist (ys ++ [(lookupV d kw).getD .vnull])) ∧
        (ys ++ [(lookupV d kw).getD .vnull]).length = (ts0 ++ [offset]).length) ∧
    (kw.all (fun e => dims.contains e.1) = false →
      (seriesAddSample dims st offset kw).1 = some "AssertionError" ∧
      lookupV "$_time" (seriesAddSample dims st offset kw).2
        = some (.vlist (ts0 ++ [offset])) ∧
      ∀ d ∈ dims, lookupV d (seriesAddSample dims st offset kw).2
        = lookupV d st) := by
  have hget : getPropFn "$_time" .pPlain st = (.vlist ts0, st) := by
    simp only [getPropFn, htl]
  have hpres2 : ∀ d ∈ dims,
      lookupV d (setIns "$_time" (.vlist (ts0 ++ [offset])) st) = lookupV d st := by
    intro d hd
    exact lookupV_setIns_ne _ _ (fun h => hts (h ▸ hd))
  constructor
  · intro hall
    have hred : seriesAddSample dims st offset kw
        = dimsAppend (setIns "$_time" (.vlist (ts0 ++ [offset])) st) kw dims := by
      simp only [seriesAddSample, hget, hall, if_true]
    have hex : ∀ d ∈ dims, ∃ ys : List Val,
        lookupV d (setIns "$_time" (.vlist (ts0 ++ [offset])) st)
          = some (.vlist ys) := by
      intro d hd
      obtain ⟨ys, hy, _⟩ := harr d hd
      exact ⟨ys, by rw [hpres2 d hd, hy]⟩
    obtain ⟨h1, h2, h3⟩ := dimsAppend_spec kw dims
      (setIns "$_time" (.vlist (ts0 ++ [offset])) st) hnd hex
    refine ⟨by rw [hred]; exact h1, ?_, ?_⟩
    · rw [hred, h3 "$_time" hts]
      exact lookupV_setIns_self _ _ _
    · intro d hd
      obtain ⟨ys, hy, hl⟩ := harr d hd
      refine ⟨ys, hy, ?_, ?_⟩
      · rw [hred]
        exact h2 d hd ys (by rw [hpres2 d hd, hy])
      · simp [hl]
  · intro hall
    have hred : seriesAddSample dims st offset kw
        = (some "AssertionError", setIns "$_time" (.vlist (ts0 ++ [offset])) st) := by
      simp only [seriesAddSample, hget, hall, Bool.false_eq_true, if_false]
    refine ⟨by rw [hred], ?_, ?_⟩
    · rw [hred]
      exact lookupV_setIns_self _ _ _
    · intro d hd
      rw [hred]
      exact hpres2 d hd

/-- C8 witness: a well-declared call on a one-dimension series with one
prior sample succeeds and leaves `$_time` and `temperature` both at
length 2; the unprovided check is exercised through the theorem's success
branch at this concrete input. -/
theorem c8_witness :
    (seriesAddSample ["temperature"]
        [("$_time", .vlist [.vint 0]), ("temperature", .vlist [.vint 9])]
        (.vint 5) [("temperature", .vint 7)]).1 = none ∧
    lookupV "$_time" (seriesAddSample ["temperature"]
        [("$_time", .vlist [.vint 0]), ("temperature", .vlist [.vint 9])]
        (.vint 5) [("temperature", .vint 7)]).2
      = some (.vlist [.vint 0, .vint 5]) ∧
    lookupV "temperature" (seriesAddSample ["temperature"]
        [("$_time", .vlist [.vint 0]), ("temperature", .vlist [.vint 9])]
        (.vint 5) [("temperature", .vint 7)]).2
      = some (.vlist [.vint 9, .vint 7]) := by
  have h := c8_theorem ["temperature"]
    [("$_time", .vlist [.vint 0]), ("temperature", .vlist [.vint 9])]
    [.vint 0] (.vint 5) [("temperature", .vint 7)]
    (by decide) (by decide) rfl
    (by
      intro d hd
      simp at hd
      subst hd
      exact ⟨[.vint 9], rfl, rfl⟩)
  obtain ⟨hf, ht, hdims⟩ := h.1 rfl
  obtain ⟨ys, hy, happ, _⟩ := hdims "temperature" (by simp)
  have hy2 : some (Val.vlist [Val.vint 9]) = some (Val.vlist ys) := hy
  have hyy : ys = [.vint 9] := by
    simpa using hy2.symm
  subst hyy
  exact ⟨hf, ht, happ⟩

/-! ### C9: `Measurement.add_sample` offsets -/

/-- Assigning a datetime to the `ts` property always succeeds: the
`local_tz` convert is the identity on aware datetimes and the check
pipeline accepts any datetime for a `Datetime` property. -/
theorem setTs_ok (st : List (String × Val)) (t : Int) :
    setPropFn .measM "ts" (.pDatetime false) st (.vdt t)
      = (none, setIns "ts" (.vdt t) st) := rfl

/-- C9: `Measurement.add_sample(ts, **kwargs)` — when the series'
`$_time` column is empty (the first sample), the entity's own `ts` is set
to the supplied timestamp and the sample is recorded with offset 0; on
every later call the entity's `ts` is left unchanged and the offset is
the whole-millisecond (floor) delta between the supplied timestamp and
the entity's fixed `ts` — not the previous sample's timestamp — so all
offsets are relative to the single reference timestamp. -/
theorem c9_theorem (st sst : List (String × Val)) (sdims : List String)
    (ts0 : List Val) (t : Int) (kw : List (String × Val))
    (hser : lookupV "series" st = some (.vent .seriesM sdims (.vdict sst)))
    (hoff : lookupV "$_time" sst = some (.vlist ts0)) :
    (ts0 = [] →
      measAddSample (.vdict st) t kw
        = ((seriesAddSample sdims sst (.vint 0) kw).1,
           .vdict (setIns "series"
             (.vent .seriesM sdims
               (.vdict (seriesAddSample sdims sst (.vint 0) kw).2))
             (setIns "ts" (.vdt t) st)))) ∧
    (ts0 ≠ [] → ∀ t0 : Int, lookupV "ts" st = some (.vdt t0) →
      measAddSample (.vdict st) t kw
        = ((seriesAddSample sdims sst (.vint ((t - t0).fdiv 1000)) kw).1,
           .vdict (setIns "series"
             (.vent .seriesM sdims
               (.vdict (seriesAddSample sdims sst
                 (.vint ((t - t0).fdiv 1000)) kw).2))
             st))) := by
  constructor
  · intro h0
    subst h0
    simp only [measAddSample, getPropFn, hser, hoff, pyFalsy, List.isEmpty_nil,
      if_true, setTs_ok]
  · intro hne t0 hts
    cases ts0 with
    | nil => exact absurd rfl hne
    | cons a l =>
        simp only [measAddSample, getPropFn, hser, hoff, hts, pyFalsy,
          List.isEmpty_cons, Bool.false_eq_true, if_false]

/-- C9 witness: a measurement whose fixed `ts` is 1000 µs and whose
series already holds one sample receives a sample at 5500 µs: `ts` stays
1000 and the recorded offset is 4 ms (floor of 4500 µs / 1000). -/
theorem c9_witness :
    measAddSample (.vdict [("ts", .vdt 1000),
        ("series", .vent .seriesM ["temperature"]
          (.vdict [("$_time", .vlist [.vint 0]),
                   ("temperature", .vlist [.vnull])]))])
      5500 [("temperature", .vint 7)]
    = (none, .vdict [("ts", .vdt 1000),
        ("series", .vent .seriesM ["temperature"]
          (.vdict [("$_time", .vlist [.vint 0, .vint 4]),
                   ("temperature", .vlist [.vnull, .vint 7])]))]) := by
  have h := (c9_theorem [("ts", .vdt 1000),
      ("series", .vent .seriesM ["temperature"]
        (.vdict [("$_time", .vlist [.vint 0]),
                 ("temperature", .vlist [.vnull])]))]
      [("$_time", .vlist [.vint 0]), ("temperature", .vlist [.vnull])]
      ["temperature"] [.vint 0] 5500 [("temperature", .vint 7)]
      rfl rfl).2 (List.cons_ne_nil _ _) 1000 rfl
  rw [h]
  rfl

/-! ### C10: the `deivce` typo in `ProcessPayload.__init__` -/

/-- A property assignment touches only its own key: every other key of
the backing store keeps its binding, whether the set succeeds, fails, or
erases on null. -/
theorem lookupV_setPropFn_ne (c : Cls) (n : String) (pc : PCtor)
    (st : List (String × Val)) (v : Val) (k : String) (h : k ≠ n) :
    lookupV k (setPropFn c n pc st v).2 = lookupV k st := by
  have hne : n ≠ k := Ne.symm h
  unfold setPropFn
  split
  · split
    · rfl
    · split <;> exact lookupV_eraseKey_ne st hne
  · split
    · rfl
    · split
      · rfl
      · split
        · exact lookupV_setIns_ne _ st hne
        · rfl

/-- The `__init__` body touches only the `content-spec`, `process`,
`part` and `measurements` keys of the store `__new__` hands over; every
other key — `device` in particular, since the constructor assigns the
misspelled plain attribute `deivce` instead of the `device` property —
keeps its binding from that store, whichever assignment first fails. -/
theorem processPayloadInit_preserve (st0 : List (String × Val))
    (device process part measurements : Val) (k : String)
    (hk1 : ¬ (k = "content-spec")) (hk2 : ¬ (k = "process"))
    (hk3 : ¬ (k = "part")) (hk4 : ¬ (k = "measurements")) :
    ∀ st, (processPayloadInit st0 device process part measurements).2
        = .vent .processPayload [] (.vdict st) →
      lookupV k st = lookupV k st0 := by
  intro st heq
  have hcs : lookupV k (setIns "content-spec"
      (.vstr "urn:spec://eclipse.org/unide/process-message#v2") st0)
      = lookupV k st0 :=
    lookupV_setIns_ne _ st0 (fun h => hk1 h.symm)
  rcases h1 : setPropFn .processPayload "process" (.pInstOf .processE false)
      (setIns "content-spec"
        (.vstr "urn:spec://eclipse.org/unide/process-message#v2") st0)
      process with ⟨o1, st1⟩
  have p1 : lookupV k st1 = lookupV k st0 := by
    have hp := lookupV_setPropFn_ne .processPayload "process"
      (.pInstOf .processE false)
      (setIns "content-spec"
        (.vstr "urn:spec://eclipse.org/unide/process-message#v2") st0)
      process k hk2
    rw [h1] at hp
    exact hp.trans hcs
  simp only [processPayloadInit, h1] at heq
  cases o1 with
  | some e =>
      simp only at heq
      obtain ⟨-, -, heq2⟩ := Val.vent.inj heq
      obtain rfl := (Val.vdict.inj heq2).symm
      exact p1
  | none =>
      simp only at heq
      rcases h2 : setPropFn .processPayload "part" (.pInstOf .partP false)
          st1 part with ⟨o2, st2⟩
      have p2 : lookupV k st2 = lookupV k st0 := by
        have hp := lookupV_setPropFn_ne .processPayload "part"
          (.pInstOf .partP false) st1 part k hk3
        rw [h2] at hp
        exact hp.trans p1
      rw [h2] at heq
      cases o2 with
      | some e =>
          simp only at heq
          obtain ⟨-, -, heq2⟩ := Val.vent.inj heq
          obtain rfl := (Val.vdict.inj heq2).symm
          exact p2
      | none =>
          simp only at heq
          rcases h3 : setPropFn .processPayload "measurements"
              (.pListOf .measP) st2 measurements with ⟨o3, st3⟩
          have p3 : lookupV k st3 = lookupV k st0 := by
            have hp := lookupV_setPropFn_ne .processPayload "measurements"
              (.pListOf .measP) st2 measurements k hk4
            rw [h3] at hp
            exact hp.trans p2
          rw [h3] at heq
          cases o3 with
          | some e =>
              simp only at heq
              obtain ⟨-, -, heq2⟩ := Val.vent.inj heq
              obtain rfl := (Val.vdict.inj heq2).symm
              exact p3
          | none =>
              simp only at heq
              obtain ⟨-, -, heq2⟩ := Val.vent.inj heq
              obtain rfl := (Val.vdict.inj heq2).symm
              exact p3

/-! ### C2: `Object.load` and the convert function -/

/-- A successful non-null property assignment stores exactly the
*converted* value: `Property.__set__` runs `self.convert(value, self)`
before validating and writing. -/
theorem setPropFn_ok_lookup (c : Cls) (n : String) (pc : PCtor)
    (st st1 : List (String × Val)) (v : Val) (hv : v ≠ .vnull)
    (h : setPropFn c n pc st v = (none, st1)) :
    ∃ cv, applyConv (toConv pc) v = .ok cv ∧ lookupV n st1 = some cv := by
  unfold setPropFn at h
  split at h
  · exact absurd rfl hv
  · split at h
    · simp at h
    · rename_i cv hcv
      split at h
      · simp at h
      · rename_i errs herrs
        split at h
        · obtain ⟨-, h2⟩ := Prod.mk.inj h
          subst h2
          exact ⟨cv, hcv, lookupV_setIns_self n cv st⟩
        · simp at h

/-- `isNullV` reflects being the null value. -/
theorem isNullV_false_ne (v : Val) (h : isNullV v = false) : v ≠ .vnull := by
  intro hv
  subst hv
  simp [isNullV] at h

/-- The `Object.load` loop on a key-distinct raw dict: keys not in the
raw dict keep their store binding; an undeclared raw key leaves its
adopted binding untouched; and a declared raw key ends bound to
`convert(load(value))` — the setter re-applies the property's convert
function to the loaded value before storing it. -/
theorem objLoadLoop_spec (c : Cls) :
    ∀ (pend st st' : List (String × Val)),
      (keysOf pend).Nodup →
      objLoadLoop c pend st = .ok st' →
      (∀ k, k ∉ keysOf pend → lookupV k st' = lookupV k st) ∧
      (∀ k v, (k, v) ∈ pend →
        (lookupP k (clsProps c) = none → lookupV k st' = lookupV k st) ∧
        (∀ pc, lookupP k (clsProps c) = some pc →
          ∃ lv cv, applyLoadK (toLoadK pc) v = .ok lv ∧ lv ≠ .vnull ∧
            applyConv (toConv pc) lv = .ok cv ∧
            lookupV k st' = some cv)) := by
  intro pend
  induction pend with
  | nil =>
      intro st st' _ heq
      have hst : st = st' := by
        simpa [objLoadLoop] using heq
      subst hst
      refine ⟨fun k _ => rfl, fun k v hm => ?_⟩
      simp at hm
  | cons e rest ih =>
      obtain ⟨k0, v0⟩ := e
      intro st st' hnd heq
      have hnd2 : (k0 :: keysOf rest).Nodup := hnd
      have hnd' : (keysOf rest).Nodup := (List.nodup_cons.mp hnd2).2
      have hk0 : k0 ∉ keysOf rest := (List.nodup_cons.mp hnd2).1
      cases hp : lookupP k0 (clsProps c) with
      | none =>
          have heq' : objLoadLoop c rest st = .ok st' := by
            simpa [objLoadLoop, hp] using heq
          obtain ⟨ihp, ihm⟩ := ih st st' hnd' heq'
          refine ⟨?_, ?_⟩
          · intro k hk
            exact ihp k (fun h => hk (List.mem_cons_of_mem _ h))
          · intro k v hm
            rcases List.mem_cons.mp hm with hhead | htail
            · injection hhead with h1 h2
              subst h1
              subst h2
              refine ⟨fun _ => ihp _ hk0, fun pc hpc => ?_⟩
              rw [hp] at hpc
              cases hpc
            · exact ihm k v htail
      | some pc0 =>
          cases hl : applyLoadK (toLoadK pc0) v0 with
          | error e =>
              simp [objLoadLoop, hp, hl] at heq
          | ok lv0 =>
              rcases hs : setPropFn c k0 pc0 st lv0 with ⟨o, st1⟩
              cases o with
              | some e =>
                  simp [objLoadLoop, hp, hl, hs] at heq
              | none =>
                  have hred : objLoadLoop c ((k0, v0) :: rest) st
                      = if isNullV lv0 then
                          .error "RuntimeError: dictionary changed size during iteration"
                        else objLoadLoop c rest st1 := by
                    cases lv0 <;> simp [objLoadLoop, hp, hl, hs, isNullV]
                  rw [hred] at heq
                  cases hnull : isNullV lv0 with
                  | true =>
                      rw [hnull] at heq
                      simp at heq
                  | false =>
                      rw [hnull] at heq
                      simp only [Bool.false_eq_true, if_false] at heq
                      have hvne : lv0 ≠ .vnull := isNullV_false_ne lv0 hnull
                      obtain ⟨ihp, ihm⟩ := ih st1 st' hnd' heq
                      have hstep : ∀ k, k ≠ k0 → lookupV k st1 = lookupV k st := by
                        intro k hk
                        have hpn := lookupV_setPropFn_ne c k0 pc0 st lv0 k hk
                        rw [hs] at hpn
                        exact hpn
                      refine ⟨?_, ?_⟩
                      · intro k hk
                        have hk1 : k ≠ k0 :=
                          fun h => hk (h ▸ List.mem_cons_self k0 (keysOf rest))
                        have hk2 : k ∉ keysOf rest :=
                          fun h => hk (List.mem_cons_of_mem _ h)
                        rw [ihp k hk2]
                        exact hstep k hk1
                      · intro k v hm
                        rcases List.mem_cons.mp hm with hhead | htail
                        · injection hhead with h1 h2
                          subst h1
                          subst h2
                          refine ⟨fun hpn => ?_, fun pc hpc => ?_⟩
                          · rw [hp] at hpn
                            cases hpn
                          · rw [hp] at hpc
                            injection hpc with hpc
                            subst hpc
                            obtain ⟨cv, hcv, hlook⟩ :=
                              setPropFn_ok_lookup c _ pc0 st st1 lv0 hvne hs
                            exact ⟨lv0, cv, hl, hvne, hcv, by rw [ihp _ hk0]; exact hlook⟩
                        · have hkrest : k ∈ keysOf rest :=
                            List.mem_map_of_mem Prod.fst htail
                          have hkne : k ≠ k0 := fun h => hk0 (h ▸ hkrest)
                          obtain ⟨ha, hb⟩ := ihm k v htail
                          refine ⟨fun hpn => ?_, hb⟩
                          rw [ha hpn]
                          exact hstep k hkne

/-- Modelled from the spec: a loader that adopts the raw map as the
backing store and applies ONLY each declared property's `load` transform
to the keys present — never the property's convert function. -/
def loadSpecOnly (c : Cls) (pend st : List (String × Val)) :
    Except String (List (String × Val)) :=
  match pend with
  | [] => .ok st
  | (k, v) :: rest =>
      match lookupP k (clsProps c) with
      | none => loadSpecOnly c rest st
      | some pc =>
          match applyLoadK (toLoadK pc) v with
          | .error e => .error e
          | .ok lv => loadSpecOnly c rest (setIns k lv st)

/-- C2 counterexample: loading `{"upperError": 3}` into `Limit` runs the
`Float` property's convert on the adopted int, storing the float `3.0`;
the spec's convert-free loader would keep the raw int `3`.  So convert IS
re-applied during `load`, refuting the claim. -/
theorem c2_counterexample :
    entLoad .limitM (.vdict [("upperError", .vint 3)])
      = .ok (.vent .limitM [] (.vdict [("upperError", .vfloat 3)])) ∧
    loadSpecOnly .limitM [("upperError", .vint 3)] [("upperError", .vint 3)]
      = .ok [("upperError", .vint 3)] :=
  ⟨rfl, rfl⟩

/-- C2 (amended): `Object.load` adopts the raw map as the backing store
(keys absent from the raw dict keep their bindings and undeclared raw
keys stay untouched), and for every declared key present, `setattr` runs
the property's `__set__`, so the final store binds the key to
`convert(prop.load(value))` — the convert function IS re-applied to every
loaded value, contrary to the claim. -/
theorem c2_theorem (c : Cls) (es st' : List (String × Val))
    (hstyle : loadStyle c = .plain)
    (hnd : (keysOf es).Nodup)
    (hload : entLoad c (.vdict es) = .ok (.vent c [] (.vdict st'))) :
    (∀ k, k ∉ keysOf es → lookupV k st' = lookupV k es) ∧
    (∀ k v, (k, v) ∈ es →
      (lookupP k (clsProps c) = none → lookupV k st' = lookupV k es) ∧
      (∀ pc, lookupP k (clsProps c) = some pc →
        ∃ lv cv, applyLoadK (toLoadK pc) v = .ok lv ∧ lv ≠ .vnull ∧
          applyConv (toConv pc) lv = .ok cv ∧
          lookupV k st' = some cv)) := by
  have hl : objLoadLoop c es es = .ok st' := by
    simp only [entLoad, applyLoadK, hstyle] at hload
    cases h : objLoadLoop c es es with
    | error e =>
        rw [h] at hload
        cases hload
    | ok st2 =>
        rw [h] at hload
        injection hload with hload
        obtain ⟨-, -, h2⟩ := Val.vent.inj hload
        rw [(Val.vdict.inj h2)]
  exact objLoadLoop_spec c es es st' hnd hl

/-- C2 witness: loading `{"upperError": 3}` into `Limit` yields a store
whose `upperError` is the *converted* value `3.0` = `convert(load(3))`. -/
theorem c2_witness :
    ∃ lv cv : Val, applyLoadK (toLoadK (.pFloat true)) (.vint 3) = .ok lv ∧
      lv ≠ .vnull ∧ applyConv (toConv (.pFloat true)) lv = .ok cv ∧
      lookupV "upperError" [("upperError", Val.vfloat 3)] = some cv := by
  have h := c2_theorem .limitM [("upperError", .vint 3)]
    [("upperError", .vfloat 3)] rfl (by decide) rfl
  exact (h.2 "upperError" (.vint 3) (by simp)).2 (.pFloat true) rfl

/-! ### C1: canonical well-formed entities and the dump/load roundtrip

The claim quantifies over "valid" payloads, but validity (`problems() ==
[]`) does not pin the store down to the shapes the load path rebuilds:
the counterexample below is a valid payload whose roundtrip raises.  The
amended claim holds on the canonical stores the public API produces,
captured by the `wfEnt` family: dict stores with distinct keys, declared
keys holding converted non-null values of the declared type, nested
entities canonical in turn, dimension containers holding JSON-pure
columns, and the declared dimension list agreeing with what `load`
rederives from the keys. -/

def nodupKeys : List String → Bool
  | [] => true
  | k :: ks => !(ks.contains k) && nodupKeys ks

/-- Does the store's `content-spec` entry hold exactly the class constant? -/
def csOK (urn : String) (es : List (String × Val)) : Bool :=
  match lookupV "content-spec" es with
  | some (.vstr s) => s = urn
  | _ => false

/-- The dimension list the `Series.load` override derives: the store keys
in order, minus the reserved time column. -/
def seriesDims : List String → List String
  | [] => []
  | k :: ks => if k = "$_time" then seriesDims ks else k :: seriesDims ks

/-- Canonical value of a declared dimension: a non-null JSON-pure column
for `list` dimension types, an adopted entity with a JSON-pure dict store
for entity dimension types (`add_dimension` adopts raw data without
running the element class's `load`). -/
def wfDimVal : DimT → Val → Bool
  | .listD, v => !(isNullV v) && jsonPure v
  | .entD c', .vent c'' dims d =>
      decide (c'' = c') && dims.isEmpty && isDictB d && jsonPure d
  | .entD _, _ => false

def wfDimEntries (dt : DimT) : List (String × Val) → Bool
  | [] => true
  | (_, v) :: rest => wfDimVal dt v && wfDimEntries dt rest

/-- Canonical series store: the reserved `$_time` column is JSON-pure
(it is adopted untouched by `Series.load`), every other column is a
non-null JSON-pure dimension value. -/
def wfSeriesEntries : List (String × Val) → Bool
  | [] => true
  | (k, v) :: rest =>
      (if k = "$_time" then jsonPure v else !(isNullV v) && jsonPure v) &&
      wfSeriesEntries rest

mutual

/-- Canonical well-formed entity data for class `c` carrying declared
dimension list `dims`: a dict store with distinct keys whose shape
matches the class's load style — plain `Object`s have no dimensions, a
correct discriminator when the class declares one, and every key either
the consumed discriminator or a declared property holding a canonical
value; `HasDimensions` classes derive their dimension list from the keys. -/
def wfEnt (c : Cls) (dims : List String) : Val → Bool
  | .vdict es =>
      nodupKeys (keysOf es) &&
      (match loadStyle c with
       | .plain =>
           dims.isEmpty &&
           (match csOf c with
            | some urn => csOK urn es
            | none => true) &&
           wfPlainEntries c es
       | .dimsLoad =>
           (match dimTypeOf c with
            | some dt => decide (dims = keysOf es) && wfDimEntries dt es
            | none => false)
       | .seriesLoad =>
           decide (dims = seriesDims (keysOf es)) && wfSeriesEntries es)
  | _ => false

/-- Every store entry of a plain `Object`: the discriminator key (only
where the class declares one; its value is checked by `csOK`), or a
declared property with a canonical value. -/
def wfPlainEntries (c : Cls) : List (String × Val) → Bool
  | [] => true
  | (k, v) :: rest =>
      (if k = "content-spec" then (csOf c).isSome
       else
         match lookupP k (clsProps c) with
         | some pc => wfPropVal pc v
         | none => false) &&
      wfPlainEntries c rest

/-- Canonical stored value for a declared property: the converted shape
of its constructor (so convert is the identity on it), within the length
bound and the enumeration where configured, never null (the setter erases
instead of storing null), JSON-pure where the codec must not disturb it,
and recursively canonical for nested entities. -/
def wfPropVal : PCtor → Val → Bool
  | .pString b os _, .vstr s =>
      (match b with | none => true | some bound => decide (s.length ≤ bound)) &&
      (match os with | none => true | some l => l.contains s)
  | .pString _ _ _, _ => false
  | .pFloat _, .vfloat _ => true
  | .pFloat _, _ => false
  | .pDatetime _, .vdt _ => true
  | .pDatetime _, _ => false
  | .pMap, v => !(isNullV v) && jsonPure v
  | .pPlain, v => !(isNullV v) && jsonPure v
  | .pInstOf c' _, .vent c'' dims' d' => decide (c'' = c') && wfEnt c'' dims' d'
  | .pInstOf _ _, _ => false
  | .pListOf c', .vlist xs => wfEntList c' xs
  | .pListOf _, _ => false

/-- A `ListOf` value: every element an entity of the element class,
canonical in turn. -/
def wfEntList (c' : Cls) : List Val → Bool
  | [] => true
  | .vent c'' dims d :: rest =>
      decide (c'' = c') && wfEnt c'' dims d && wfEntList c' rest
  | _ :: _ => false

end

/-- The JSON encoder is the identity on JSON-pure values. -/
theorem jsonPure_dump_aux : ∀ n : Nat,
    (∀ v : Val, sizeOf v ≤ n → jsonPure v = true → dumpVal v = v) ∧
    (∀ xs : List Val, sizeOf xs ≤ n → jsonPureL xs = true → dumpList xs = xs) ∧
    (∀ es : List (String × Val), sizeOf es ≤ n → jsonPureE es = true →
      dumpEntries es = es) := by
  intro n
  induction n using Nat.strong_induction_on with
  | _ n IH =>
    refine ⟨?_, ?_, ?_⟩
    · intro v hs hw
      cases v with
      | vlist xs =>
          have hlt : sizeOf xs < n := by
            have := szV_list xs
            omega
          simp only [jsonPure] at hw
          simp only [dumpVal]
          rw [(IH (sizeOf xs) hlt).2.1 xs le_rfl hw]
      | vdict es =>
          have hlt : sizeOf es < n := by
            have := szV_dict es
            omega
          simp only [jsonPure] at hw
          simp only [dumpVal]
          rw [(IH (sizeOf es) hlt).2.2 es le_rfl hw]
      | vdt t => simp [jsonPure] at hw
      | vent c dims d => simp [jsonPure] at hw
      | _ => rfl
    · intro xs hs hw
      cases xs with
      | nil => rfl
      | cons x tl =>
          have hx : sizeOf x < n := by
            have := szL_head x tl
            omega
          have htl : sizeOf tl < n := by
            have := szL_tail x tl
            omega
          simp only [jsonPureL, Bool.and_eq_true] at hw
          simp only [dumpList]
          rw [(IH (sizeOf x) hx).1 x le_rfl hw.1,
            (IH (sizeOf tl) htl).2.1 tl le_rfl hw.2]
    · intro es hs hw
      cases es with
      | nil => rfl
      | cons e tl =>
          obtain ⟨k, v⟩ := e
          have hv : sizeOf v < n := by
            have := szE_head k v tl
            omega
          have htl : sizeOf tl < n := by
            have := szE_tail k v tl
            omega
          simp only [jsonPureE, Bool.and_eq_true] at hw
          simp only [dumpEntries]
          rw [(IH (sizeOf v) hv).1 v le_rfl hw.1,
            (IH (sizeOf tl) htl).2.2 tl le_rfl hw.2]

/-- The JSON encoder is the identity on JSON-pure values. -/
theorem jsonPure_dumpVal (v : Val) (h : jsonPure v = true) : dumpVal v = v :=
  (jsonPure_dump_aux (sizeOf v)).1 v le_rfl h

theorem jsonPureE_dumpEntries (es : List (String × Val)) (h : jsonPureE es = true) :
    dumpEntries es = es :=
  (jsonPure_dump_aux (sizeOf es)).2.2 es le_rfl h

/-! The ISO codec is lossless on every timestamp. -/

theorem charDigit_digitChar (d : Nat) (h : d < 10) :
    charDigit (digitChar d) = some d := by
  have hv : (48 + d).isValidChar := by
    left
    omega
  have ht : (digitChar d).toNat = 48 + d := by
    rw [digitChar, Char.ofNat, dif_pos hv]
    rfl
  rw [charDigit, ht, if_pos (by omega : 48 ≤ 48 + d ∧ 48 + d ≤ 57)]
  congr 1
  omega

theorem digitsToNat_map (ds : List Nat) (h : ∀ d ∈ ds, d < 10) :
    digitsToNat (ds.map digitChar) = some ds := by
  induction ds with
  | nil => rfl
  | cons d rest ih =>
      simp only [List.map_cons, digitsToNat,
        charDigit_digitChar d (h d (List.mem_cons_self d rest)),
        ih (fun x hx => h x (List.mem_cons_of_mem d hx))]

theorem isoParse_isoEncode (t : Int) : isoParse (isoEncode t) = .ok (.vdt t) := by
  have hd : ∀ d ∈ Nat.digits 10 t.natAbs, d < 10 :=
    fun d hdm => Nat.digits_lt_base (by omega) hdm
  have hcast : (Nat.ofDigits 10 (Nat.digits 10 t.natAbs) : Int)
      = ((t.natAbs : Nat) : Int) := by
    have h2 := Nat.coe_ofDigits Int 10 (Nat.digits 10 t.natAbs)
    rw [Nat.ofDigits_digits] at h2
    simpa using h2.symm
  by_cases h : t < 0
  · simp only [isoEncode, if_pos h, isoParse, digitsToNat_map _ hd, if_true]
    rw [hcast]
    have hn : -((t.natAbs : Nat) : Int) = t := by omega
    rw [hn]
  · simp only [isoEncode, if_neg h, isoParse, digitsToNat_map _ hd, if_true]
    rw [if_neg (by decide : ¬ ('+' = '-')), hcast]
    have hn : ((t.natAbs : Nat) : Int) = t := by omega
    rw [hn]

/-! Utilities for the roundtrip development. -/

theorem contains_false_iff (l : List String) (a : String) :
    l.contains a = false ↔ a ∉ l := by
  constructor
  · intro h hm
    have h2 : l.contains a = true := List.elem_iff.mpr hm
    rw [h2] at h
    cases h
  · intro h
    cases hc : l.contains a
    · rfl
    · exact absurd (List.elem_iff.mp hc) h

theorem nodupKeys_iff : ∀ l : List String, nodupKeys l = true ↔ l.Nodup := by
  intro l
  induction l with
  | nil => simp [nodupKeys]
  | cons k ks ih =>
      simp only [nodupKeys, Bool.and_eq_true, Bool.not_eq_true', List.nodup_cons,
        contains_false_iff, ih]

theorem szE_mem {k : String} {v : Val} : ∀ {es : List (String × Val)},
    (k, v) ∈ es → sizeOf v < sizeOf es := by
  intro es
  induction es with
  | nil =>
      intro h
      simp at h
  | cons e tl ih =>
      obtain ⟨k2, v2⟩ := e
      intro h
      rcases List.mem_cons.mp h with heq | hm
      · injection heq with h1 h2
        subst h2
        exact szE_head k2 v tl
      · exact lt_trans (ih hm) (szE_tail k2 v2 tl)

theorem szL_mem {x : Val} : ∀ {xs : List Val}, x ∈ xs → sizeOf x < sizeOf xs := by
  intro xs
  induction xs with
  | nil =>
      intro h
      simp at h
  | cons y tl ih =>
      intro h
      rcases List.mem_cons.mp h with heq | hm
      · subst heq
        exact szL_head x tl
      · exact lt_trans (ih hm) (szL_tail y tl)

theorem dimsLoad_no_props (c : Cls) (h : loadStyle c = .dimsLoad) :
    clsProps c = [] := by
  cases c <;> first | rfl | simp [loadStyle] at h

theorem dimsLoad_no_cs (c : Cls) (h : loadStyle c = .dimsLoad) : csOf c = none := by
  cases c <;> first | rfl | simp [loadStyle] at h

theorem seriesLoad_shape (c : Cls) (h : loadStyle c = .seriesLoad) :
    dimTypeOf c = some .listD ∧ clsProps c = [("$_time", .pPlain)] ∧
      csOf c = none := by
  cases c <;> first | exact ⟨rfl, rfl, rfl⟩ | simp [loadStyle] at h

theorem plain_no_dimType (c : Cls) (h : loadStyle c = .plain) :
    dimTypeOf c = none := by
  cases c <;> first | rfl | simp [loadStyle] at h

theorem csOf_registry (c : Cls) (urn : String) (h : csOf c = some urn) :
    registry urn = some c := by
  cases c <;> simp [csOf] at h <;> subst h <;> rfl

theorem csOK_spec {urn : String} {es : List (String × Val)} (h : csOK urn es = true) :
    lookupV "content-spec" es = some (.vstr urn) := by
  unfold csOK at h
  split at h
  · rename_i s heq
    simp only [decide_eq_true_eq] at h
    subst h
    exact heq
  · cases h

theorem csErrList_ok (c : Cls) {urn : String} {es : List (String × Val)}
    (h : csOK urn es = true) : csErrList c urn es = [] := by
  unfold csErrList
  rw [csOK_spec h]
  simp

theorem setIns_replace (k : String) (v w : Val) :
    ∀ (pre tail : List (String × Val)), k ∉ keysOf pre →
      setIns k v (pre ++ (k, w) :: tail) = pre ++ (k, v) :: tail := by
  intro pre
  induction pre with
  | nil =>
      intro tail _
      simp [setIns]
  | cons e pr ih =>
      obtain ⟨k', v'⟩ := e
      intro tail hk
      have hk1 : ¬ (k' = k) := by
        intro h
        subst h
        exact hk (List.mem_cons_self k' (keysOf pr))
      simp only [List.cons_append, setIns, if_neg hk1, List.append_eq]
      rw [ih tail (fun h => hk (List.mem_cons_of_mem k' h))]

theorem addDim_fresh (dims : List String) (k : String) (h : k ∉ dims) :
    addDim dims k = dims ++ [k] := by
  unfold addDim
  rw [if_neg (fun hc => h (List.elem_iff.mp hc))]

theorem mem_seriesDims {x : String} : ∀ {l : List String}, x ∈ seriesDims l → x ∈ l := by
  intro l
  induction l with
  | nil =>
      intro h
      simp [seriesDims] at h
  | cons k ks ih =>
      intro h
      by_cases hk : k = "$_time"
      · rw [seriesDims, if_pos hk] at h
        exact List.mem_cons_of_mem k (ih h)
      · rw [seriesDims, if_neg hk] at h
        rcases List.mem_cons.mp h with rfl | hm
        · exact List.mem_cons_self x ks
        · exact List.mem_cons_of_mem k (ih hm)

theorem seriesDims_mem_of {x : String} : ∀ {l : List String}, x ∈ l →
    x ≠ "$_time" → x ∈ seriesDims l := by
  intro l
  induction l with
  | nil =>
      intro h
      simp at h
  | cons k ks ih =>
      intro h hx
      by_cases hk : k = "$_time"
      · rw [seriesDims, if_pos hk]
        rcases List.mem_cons.mp h with rfl | hm
        · exact absurd hk hx
        · exact ih hm hx
      · rw [seriesDims, if_neg hk]
        rcases List.mem_cons.mp h with rfl | hm
        · exact List.mem_cons_self x _
        · exact List.mem_cons_of_mem k (ih hm hx)

theorem seriesDims_append : ∀ (l : List String) (k : String),
    seriesDims (l ++ [k]) = seriesDims l ++ (if k = "$_time" then [] else [k]) := by
  intro l k
  induction l with
  | nil =>
      by_cases hk : k = "$_time" <;>
        simp [seriesDims, hk]
  | cons j js ih =>
      by_cases hj : j = "$_time"
      · simp only [List.cons_append, seriesDims, if_pos hj]
        exact ih
      · simp only [List.cons_append, seriesDims, if_neg hj]
        exact congrArg (List.cons j) ih

theorem loadList_restore (c' : Cls) :
    ∀ xs : List Val,
      (∀ x ∈ xs, applyLoadK (.lkEnt c') (dumpVal x) = .ok x) →
      loadList c' (dumpList xs) = .ok xs := by
  intro xs
  induction xs with
  | nil =>
      intro _
      rfl
  | cons x rest ih =>
      intro h
      simp only [dumpList, loadList, h x (List.mem_cons_self x rest),
        ih (fun y hy => h y (List.mem_cons_of_mem x hy))]

/-- A successful conversion-then-validation assignment stores the
converted value in place. -/
theorem setPropFn_store (c : Cls) (k : String) (pc : PCtor)
    (st : List (String × Val)) (lv v : Val) (hnv : lv ≠ .vnull)
    (hconv : applyConv (toConv pc) lv = .ok v)
    (hchk : checkFn (clsName c) k pc v = .ok []) :
    setPropFn c k pc st lv = (none, setIns k v st) := by
  cases lv
  case vnull => exact absurd rfl hnv
  all_goals
    simp only [setPropFn, hconv, hchk, List.isEmpty_nil, if_true]

/-! Single-step reductions of the three load loops. -/

theorem objLoadLoop_step_skip (c : Cls) (k : String) (w : Val)
    (pend st : List (String × Val)) (hp : lookupP k (clsProps c) = none) :
    objLoadLoop c ((k, w) :: pend) st = objLoadLoop c pend st := by
  simp [objLoadLoop, hp]

theorem objLoadLoop_step (c : Cls) (k : String) (pc : PCtor) (w lv v : Val)
    (pend st : List (String × Val))
    (hp : lookupP k (clsProps c) = some pc)
    (hl : applyLoadK (toLoadK pc) w = .ok lv) (hnv : lv ≠ .vnull)
    (hconv : applyConv (toConv pc) lv = .ok v)
    (hchk : checkFn (clsName c) k pc v = .ok []) :
    objLoadLoop c ((k, w) :: pend) st = objLoadLoop c pend (setIns k v st) := by
  have hsp := setPropFn_store c k pc st lv v hnv hconv hchk
  cases lv
  case vnull => exact absurd rfl hnv
  all_goals
    simp only [objLoadLoop, hp, hl, hsp]

theorem dimsBuild_step (dt : DimT) (k : String) (w : Val) (hw : w ≠ .vnull)
    (pend st : List (String × Val)) (dims : List String) :
    dimsBuild dt ((k, w) :: pend) st dims
      = dimsBuild dt pend (setIns k (makeDim dt w) st) (addDim dims k) := by
  cases w
  case vnull => exact absurd rfl hw
  all_goals rfl

theorem seriesBuild_step_time (dt : DimT) (v : Val)
    (pend st : List (String × Val)) (dims : List String) :
    seriesBuild dt (("$_time", v) :: pend) st dims
      = seriesBuild dt pend st dims := by
  simp [seriesBuild]

theorem seriesBuild_step (dt : DimT) (k : String) (hk : ¬ (k = "$_time"))
    (w : Val) (hw : w ≠ .vnull) (pend st : List (String × Val))
    (dims : List String) :
    seriesBuild dt ((k, w) :: pend) st dims
      = seriesBuild dt pend (setIns k (makeDim dt w) st) (addDim dims k) := by
  cases w
  case vnull => exact absurd rfl hw
  all_goals
    simp only [seriesBuild, if_neg hk]

/-- The value `add_dimension` rebuilds from a canonical dimension value's
dumped form is the original value (and the dumped form is non-null, so
the no-data branch is never taken). -/
theorem wfDimVal_restore (dt : DimT) (v : Val) (h : wfDimVal dt v = true) :
    dumpVal v ≠ .vnull ∧ makeDim dt (dumpVal v) = v := by
  cases dt with
  | listD =>
      simp only [wfDimVal, Bool.and_eq_true, Bool.not_eq_true'] at h
      rw [jsonPure_dumpVal v h.2]
      exact ⟨isNullV_false_ne v h.1, rfl⟩
  | entD c' =>
      cases v with
      | vent c'' dims d =>
          simp only [wfDimVal, Bool.and_eq_true, decide_eq_true_eq] at h
          obtain ⟨⟨⟨hc, hdim⟩, hdict⟩, hpure⟩ := h
          subst hc
          have hdual : dumpVal (Val.vent c'' dims d) = dumpVal d := rfl
          rw [hdual, jsonPure_dumpVal d hpure]
          have hd0 : dims = [] := by
            cases dims
            · rfl
            · simp at hdim
          subst hd0
          cases d with
          | vdict es => exact ⟨by simp, rfl⟩
          | vnull => simp [isDictB] at hdict
          | vbool b => simp [isDictB] at hdict
          | vint n => simp [isDictB] at hdict
          | vfloat q => simp [isDictB] at hdict
          | vstr s => simp [isDictB] at hdict
          | vdt t => simp [isDictB] at hdict
          | vlist xs => simp [isDictB] at hdict
          | vent c3 dims3 d3 => simp [isDictB] at hdict
      | vnull => simp [wfDimVal] at h
      | vbool b => simp [wfDimVal] at h
      | vint n => simp [wfDimVal] at h
      | vfloat q => simp [wfDimVal] at h
      | vstr s => simp [wfDimVal] at h
      | vdt t => simp [wfDimVal] at h
      | vlist xs => simp [wfDimVal] at h
      | vdict es => simp [wfDimVal] at h

/-- `Object.load`'s loop restores the original store from its dumped
form, given that every entry either is undeclared with a JSON-pure value
or is declared and passes load-convert-check back to itself. -/
theorem objLoadLoop_restore (c : Cls) :
    ∀ (es pre : List (String × Val)),
      (∀ j, j ∈ keysOf es → j ∉ keysOf pre) →
      (keysOf es).Nodup →
      (∀ k v, (k, v) ∈ es →
        (lookupP k (clsProps c) = none → dumpVal v = v) ∧
        (∀ pc, lookupP k (clsProps c) = some pc →
          ∃ lv, applyLoadK (toLoadK pc) (dumpVal v) = .ok lv ∧ lv ≠ .vnull ∧
            applyConv (toConv pc) lv = .ok v ∧
            checkFn (clsName c) k pc v = .ok [])) →
      objLoadLoop c (dumpEntries es) (pre ++ dumpEntries es) = .ok (pre ++ es) := by
  intro es
  induction es with
  | nil =>
      intro pre _ _ _
      simp [dumpEntries, objLoadLoop]
  | cons e rest ih =>
      obtain ⟨k, v⟩ := e
      intro pre hfresh hnd hent
      have hkpre : k ∉ keysOf pre := hfresh k (List.mem_cons_self k (keysOf rest))
      have hnd2 : (k :: keysOf rest).Nodup := hnd
      have hkr : k ∉ keysOf rest := (List.nodup_cons.mp hnd2).1
      have hndr : (keysOf rest).Nodup := (List.nodup_cons.mp hnd2).2
      have hfresh' : ∀ j, j ∈ keysOf rest → j ∉ keysOf (pre ++ [(k, v)]) := by
        intro j hj hjp
        have : keysOf (pre ++ [(k, v)]) = keysOf pre ++ [k] := by simp [keysOf]
        rw [this] at hjp
        rcases List.mem_append.mp hjp with h1 | h2
        · exact hfresh j (List.mem_cons_of_mem k hj) h1
        · rcases List.mem_singleton.mp h2 with rfl
          exact hkr hj
      have hent' : ∀ k2 v2, (k2, v2) ∈ rest →
          (lookupP k2 (clsProps c) = none → dumpVal v2 = v2) ∧
          (∀ pc, lookupP k2 (clsProps c) = some pc →
            ∃ lv, applyLoadK (toLoadK pc) (dumpVal v2) = .ok lv ∧ lv ≠ .vnull ∧
              applyConv (toConv pc) lv = .ok v2 ∧
              checkFn (clsName c) k2 pc v2 = .ok []) :=
        fun k2 v2 hm => hent k2 v2 (List.mem_cons_of_mem _ hm)
      have hgoalL : dumpEntries ((k, v) :: rest)
          = (k, dumpVal v) :: dumpEntries rest := rfl
      obtain ⟨hundecl, hdecl⟩ := hent k v (List.mem_cons_self _ _)
      cases hp : lookupP k (clsProps c) with
      | none =>
          have hdv : dumpVal v = v := hundecl hp
          rw [hgoalL, objLoadLoop_step_skip c k (dumpVal v) _ _ hp, hdv]
          have hre : pre ++ (k, v) :: dumpEntries rest
              = (pre ++ [(k, v)]) ++ dumpEntries rest := by simp
          rw [hre, ih (pre ++ [(k, v)]) hfresh' hndr hent']
          simp
      | some pc =>
          obtain ⟨lv, hl, hnv, hconv, hchk⟩ := hdecl pc hp
          rw [hgoalL, objLoadLoop_step c k pc (dumpVal v) lv v _ _ hp hl hnv hconv hchk,
            setIns_replace k v (dumpVal v) pre (dumpEntries rest) hkpre]
          have hre : pre ++ (k, v) :: dumpEntries rest
              = (pre ++ [(k, v)]) ++ dumpEntries rest := by simp
          rw [hre, ih (pre ++ [(k, v)]) hfresh' hndr hent']
          simp

/-- `HasDimensions.load`'s loop restores the original store and derives
the key list as the dimension set. -/
theorem dimsBuild_restore (dt : DimT) :
    ∀ (es pre : List (String × Val)),
      (∀ j, j ∈ keysOf es → j ∉ keysOf pre) →
      (keysOf es).Nodup →
      wfDimEntries dt es = true →
      dimsBuild dt (dumpEntries es) (pre ++ dumpEntries es) (keysOf pre)
        = (pre ++ es, keysOf pre ++ keysOf es) := by
  intro es
  induction es with
  | nil =>
      intro pre _ _ _
      simp [dumpEntries, dimsBuild, keysOf]
  | cons e rest ih =>
      obtain ⟨k, v⟩ := e
      intro pre hfresh hnd hwf
      simp only [wfDimEntries, Bool.and_eq_true] at hwf
      obtain ⟨hv, hrest⟩ := hwf
      have hkpre : k ∉ keysOf pre := hfresh k (List.mem_cons_self k (keysOf rest))
      have hnd2 : (k :: keysOf rest).Nodup := hnd
      have hkr : k ∉ keysOf rest := (List.nodup_cons.mp hnd2).1
      have hndr : (keysOf rest).Nodup := (List.nodup_cons.mp hnd2).2
      obtain ⟨hwn, hwm⟩ := wfDimVal_restore dt v hv
      have hfresh' : ∀ j, j ∈ keysOf rest → j ∉ keysOf (pre ++ [(k, v)]) := by
        intro j hj hjp
        have hkk : keysOf (pre ++ [(k, v)]) = keysOf pre ++ [k] := by simp [keysOf]
        rw [hkk] at hjp
        rcases List.mem_append.mp hjp with h1 | h2
        · exact hfresh j (List.mem_cons_of_mem k hj) h1
        · rcases List.mem_singleton.mp h2 with rfl
          exact hkr hj
      have hgoalL : dumpEntries ((k, v) :: rest)
          = (k, dumpVal v) :: dumpEntries rest := rfl
      rw [hgoalL, dimsBuild_step dt k (dumpVal v) hwn, hwm,
        setIns_replace k v (dumpVal v) pre (dumpEntries rest) hkpre,
        addDim_fresh (keysOf pre) k hkpre]
      have hre : pre ++ (k, v) :: dumpEntries rest
          = (pre ++ [(k, v)]) ++ dumpEntries rest := by simp
      have hkk : keysOf pre ++ [k] = keysOf (pre ++ [(k, v)]) := by simp [keysOf]
      rw [hre, hkk, ih (pre ++ [(k, v)]) hfresh' hndr hrest]
      simp [keysOf]

/-- The `Series.load` override's loop restores the original store, leaves
the reserved time column in place, and derives the non-reserved keys as
the dimension set. -/
theorem seriesBuild_restore :
    ∀ (es pre : List (String × Val)),
      (∀ j, j ∈ keysOf es → j ∉ keysOf pre) →
      (keysOf es).Nodup →
      wfSeriesEntries es = true →
      seriesBuild .listD (dumpEntries es) (pre ++ dumpEntries es)
          (seriesDims (keysOf pre))
        = (pre ++ es, seriesDims (keysOf pre ++ keysOf es)) := by
  intro es
  induction es with
  | nil =>
      intro pre _ _ _
      simp [dumpEntries, seriesBuild, keysOf]
  | cons e rest ih =>
      obtain ⟨k, v⟩ := e
      intro pre hfresh hnd hwf
      simp only [wfSeriesEntries, Bool.and_eq_true] at hwf
      obtain ⟨hv, hrest⟩ := hwf
      have hkpre : k ∉ keysOf pre := hfresh k (List.mem_cons_self k (keysOf rest))
      have hnd2 : (k :: keysOf rest).Nodup := hnd
      have hkr : k ∉ keysOf rest := (List.nodup_cons.mp hnd2).1
      have hndr : (keysOf rest).Nodup := (List.nodup_cons.mp hnd2).2
      have hfresh' : ∀ j, j ∈ keysOf rest → j ∉ keysOf (pre ++ [(k, v)]) := by
        intro j hj hjp
        have hkk : keysOf (pre ++ [(k, v)]) = keysOf pre ++ [k] := by simp [keysOf]
        rw [hkk] at hjp
        rcases List.mem_append.mp hjp with h1 | h2
        · exact hfresh j (List.mem_cons_of_mem k hj) h1
        · rcases List.mem_singleton.mp h2 with rfl
          exact hkr hj
      have hgoalL : dumpEntries ((k, v) :: rest)
          = (k, dumpVal v) :: dumpEntries rest := rfl
      have hkeys2 : keysOf (pre ++ [(k, v)]) = keysOf pre ++ [k] := by simp [keysOf]
      have hre : pre ++ (k, v) :: dumpEntries rest
          = (pre ++ [(k, v)]) ++ dumpEntries rest := by simp
      by_cases hk : k = "$_time"
      · rw [if_pos hk] at hv
        have hdv : dumpVal v = v := jsonPure_dumpVal v hv
        subst hk
        rw [hgoalL, seriesBuild_step_time .listD (dumpVal v) _ _ _, hdv, hre]
        have hsd : seriesDims (keysOf (pre ++ [("$_time", v)]))
            = seriesDims (keysOf pre) := by
          rw [hkeys2, seriesDims_append]
          simp
        rw [← hsd, ih (pre ++ [("$_time", v)]) hfresh' hndr hrest]
        have h1 : (pre ++ [("$_time", v)]) ++ rest = pre ++ ("$_time", v) :: rest := by
          simp
        have h2 : keysOf (pre ++ [("$_time", v)]) ++ keysOf rest
            = keysOf pre ++ keysOf (("$_time", v) :: rest) := by
          simp [keysOf]
        rw [h1, h2]
      · rw [if_neg hk] at hv
        simp only [Bool.and_eq_true, Bool.not_eq_true'] at hv
        have hdv : dumpVal v = v := jsonPure_dumpVal v hv.2
        have hwn : dumpVal v ≠ .vnull := by
          rw [hdv]
          exact isNullV_false_ne v hv.1
        have hknd : k ∉ seriesDims (keysOf pre) := fun h => hkpre (mem_seriesDims h)
        have hmk : makeDim .listD (dumpVal v) = v := hdv
        rw [hgoalL, seriesBuild_step .listD k hk (dumpVal v) hwn, hmk,
          setIns_replace k v (dumpVal v) pre (dumpEntries rest) hkpre,
          addDim_fresh (seriesDims (keysOf pre)) k hknd, hre]
        have hsd : seriesDims (keysOf (pre ++ [(k, v)]))
            = seriesDims (keysOf pre) ++ [k] := by
          rw [hkeys2, seriesDims_append, if_neg hk]
        rw [← hsd, ih (pre ++ [(k, v)]) hfresh' hndr hrest]
        have h1 : (pre ++ [(k, v)]) ++ rest = pre ++ (k, v) :: rest := by
          simp
        have h2 : keysOf (pre ++ [(k, v)]) ++ keysOf rest
            = keysOf pre ++ keysOf ((k, v) :: rest) := by
          simp [keysOf]
        rw [h1, h2]

/-! The property loop of `problems` on all-clean checks. -/

theorem probLoopA_ok_all (checks : List (String × Except String (List String))) :
    ∀ (props : List (String × PCtor)) (keys : List String),
      keys.Nodup →
      (∀ name pc, (name, pc) ∈ props → name ∈ keys →
          lookupC name checks = some (.ok [])) →
      ∃ rem, probLoopA checks props keys = .ok ([], rem) ∧
        ∀ k, k ∈ rem → k ∈ keys ∧ lookupP k props = none := by
  intro props
  induction props with
  | nil =>
      intro keys _ _
      exact ⟨keys, rfl, fun k hk => ⟨hk, rfl⟩⟩
  | cons e rest ih =>
      obtain ⟨name, pc⟩ := e
      intro keys hnd hH
      by_cases hmem : name ∈ keys
      · have hcont : keys.contains name = true := List.elem_iff.mpr hmem
        have hC := hH name pc (List.mem_cons_self _ _) hmem
        obtain ⟨rem, hrec, hrem⟩ := ih (keys.erase name) (hnd.erase name)
          (fun n p hp hn => hH n p (List.mem_cons_of_mem _ hp)
            (List.mem_of_mem_erase hn))
        refine ⟨rem, ?_, ?_⟩
        · simp only [probLoopA, hcont, if_true, hC, hrec, List.nil_append]
        · intro k hk
          obtain ⟨hk1, hk2⟩ := hrem k hk
          have hkkeys : k ∈ keys := List.mem_of_mem_erase hk1
          have hkname : ¬ (name = k) := by
            intro h
            subst h
            exact (List.Nodup.not_mem_erase hnd) hk1
          refine ⟨hkkeys, ?_⟩
          show (if name = k then some pc else lookupP k rest) = none
          rw [if_neg hkname]
          exact hk2
      · have hcont : keys.contains name = false := by
          cases hc : keys.contains name
          · rfl
          · exact absurd (List.elem_iff.mp hc) hmem
        obtain ⟨rem, hrec, hrem⟩ := ih keys hnd
          (fun n p hp hn => hH n p (List.mem_cons_of_mem _ hp) hn)
        refine ⟨rem, ?_, ?_⟩
        · simp only [probLoopA, hcont, Bool.false_eq_true, if_false, hrec]
        · intro k hk
          obtain ⟨hk1, hk2⟩ := hrem k hk
          have hkname : ¬ (name = k) := by
            intro h
            subst h
            exact hmem hk1
          refine ⟨hk1, ?_⟩
          show (if name = k then some pc else lookupP k rest) = none
          rw [if_neg hkname]
          exact hk2

/-! Per-entry content of the canonical-store predicates. -/

theorem wfPlainEntries_mem (c : Cls) :
    ∀ es : List (String × Val), wfPlainEntries c es = true →
      ∀ k v, (k, v) ∈ es →
        (k = "content-spec" ∧ (csOf c).isSome = true) ∨
        (¬ (k = "content-spec") ∧
          ∃ pc, lookupP k (clsProps c) = some pc ∧ wfPropVal pc v = true) := by
  intro es
  induction es with
  | nil =>
      intro _ k v h
      simp at h
  | cons e rest ih =>
      obtain ⟨k0, v0⟩ := e
      intro h k v hm
      simp only [wfPlainEntries, Bool.and_eq_true] at h
      obtain ⟨hhead, hrest⟩ := h
      rcases List.mem_cons.mp hm with heq | hmem
      · injection heq with h1 h2
        subst h1
        subst h2
        by_cases hcs : k = "content-spec"
        · rw [if_pos hcs] at hhead
          exact Or.inl ⟨hcs, hhead⟩
        · rw [if_neg hcs] at hhead
          cases hp : lookupP k (clsProps c) with
          | some pc =>
              rw [hp] at hhead
              exact Or.inr ⟨hcs, pc, rfl, hhead⟩
          | none =>
              rw [hp] at hhead
              cases hhead
      · exact ih hrest k v hmem

theorem wfEntList_mem (c' : Cls) :
    ∀ xs : List Val, wfEntList c' xs = true → ∀ x ∈ xs,
      ∃ dims d, x = .vent c' dims d ∧ wfEnt c' dims d = true := by
  intro xs
  induction xs with
  | nil =>
      intro _ x hx
      simp at hx
  | cons y rest ih =>
      intro h x hx
      cases y with
      | vent c'' dims d =>
          simp only [wfEntList, Bool.and_eq_true, decide_eq_true_eq] at h
          obtain ⟨⟨hc, hw⟩, hrest⟩ := h
          subst hc
          rcases List.mem_cons.mp hx with rfl | hm
          · exact ⟨dims, d, rfl, hw⟩
          · exact ih hrest x hm
      | vnull => simp [wfEntList] at h
      | vbool b => simp [wfEntList] at h
      | vint n => simp [wfEntList] at h
      | vfloat q => simp [wfEntList] at h
      | vstr s => simp [wfEntList] at h
      | vdt t => simp [wfEntList] at h
      | vlist zs => simp [wfEntList] at h
      | vdict es2 => simp [wfEntList] at h

/-- A canonical stored value passes `Property.check` with no errors,
given that nested entities validate cleanly. -/
theorem wfPropVal_check (own k : String) (pc : PCtor) (v : Val)
    (hwf : wfPropVal pc v = true)
    (hnest : ∀ c'' dims'' d'', v = .vent c'' dims'' d'' →
        problemsE c'' dims'' d'' = .ok []) :
    checkFn own k pc v = .ok [] := by
  cases pc with
  | pString b os nl =>
      cases v
      case vstr s =>
        simp only [wfPropVal, Bool.and_eq_true] at hwf
        obtain ⟨hb, hos⟩ := hwf
        have hlen : lenStage (.pString b os nl) (own ++ "." ++ k) (.vstr s)
            = .ok none := by
          cases b with
          | none => rfl
          | some bound =>
              simp only [decide_eq_true_eq] at hb
              simp only [lenStage, toBound, pyLen]
              rw [if_neg (by omega : ¬ bound < s.length)]
        have hone : oneofStage (.pString b os nl) (own ++ "." ++ k) (.vstr s)
            = none := by
          cases os with
          | none => rfl
          | some l =>
              simp only [oneofStage, toOneof, memOneof]
              rw [if_pos hos]
        have hps : preStages (.pString b os nl) (own ++ "." ++ k) (.vstr s)
            = .ok none := by
          simp only [preStages, typeStage, toTypes, isinst, if_true, hlen, hone]
        simp only [checkFn, hps]
      all_goals simp [wfPropVal] at hwf
  | pFloat nl =>
      cases v
      case vfloat q => rfl
      all_goals simp [wfPropVal] at hwf
  | pDatetime nl =>
      cases v
      case vdt t => rfl
      all_goals simp [wfPropVal] at hwf
  | pMap =>
      simp only [wfPropVal, Bool.and_eq_true, Bool.not_eq_true'] at hwf
      obtain ⟨h1, h2⟩ := hwf
      cases v
      case vnull => simp [isNullV] at h1
      case vent c'' dims'' d'' => simp [jsonPure] at h2
      all_goals rfl
  | pPlain =>
      simp only [wfPropVal, Bool.and_eq_true, Bool.not_eq_true'] at hwf
      obtain ⟨h1, h2⟩ := hwf
      cases v
      case vnull => simp [isNullV] at h1
      case vent c'' dims'' d'' => simp [jsonPure] at h2
      all_goals rfl
  | pInstOf c' hd =>
      cases v
      case vent c'' dims'' d'' =>
        simp only [wfPropVal, Bool.and_eq_true, decide_eq_true_eq] at hwf
        obtain ⟨hc, hwfE⟩ := hwf
        subst hc
        have hty : isinst (.tEnt c'') (.vent c'' dims'' d'') = true := by
          simp [isinst]
        have hps : preStages (.pInstOf c'' hd) (own ++ "." ++ k)
            (.vent c'' dims'' d'') = .ok none := by
          simp only [preStages, typeStage, toTypes, hty, if_true, lenStage,
            toBound, oneofStage, toOneof]
        simp only [checkFn, hps]
        exact hnest c'' dims'' d'' rfl
      all_goals simp [wfPropVal] at hwf
  | pListOf c' =>
      cases v
      case vlist xs => rfl
      all_goals simp [wfPropVal] at hwf

/-- A canonical stored value survives the dump-then-load-then-convert
path unchanged, given that nested entities roundtrip. -/
theorem wfPropVal_restore (pc : PCtor) (v : Val)
    (hwf : wfPropVal pc v = true)
    (hnest : ∀ c'' dims'' d'', v = .vent c'' dims'' d'' →
        applyLoadK (.lkEnt c'') (dumpVal d'') = .ok (.vent c'' dims'' d''))
    (hlist : ∀ xs, v = .vlist xs → ∀ x ∈ xs,
        ∀ c'' dims'' d'', x = .vent c'' dims'' d'' →
          applyLoadK (.lkEnt c'') (dumpVal d'') = .ok (.vent c'' dims'' d'')) :
    ∃ lv, applyLoadK (toLoadK pc) (dumpVal v) = .ok lv ∧ lv ≠ .vnull ∧
      applyConv (toConv pc) lv = .ok v := by
  cases pc with
  | pString b os nl =>
      cases v
      case vstr s => exact ⟨.vstr s, rfl, by simp, rfl⟩
      all_goals simp [wfPropVal] at hwf
  | pFloat nl =>
      cases v
      case vfloat q => exact ⟨.vfloat q, rfl, by simp, rfl⟩
      all_goals simp [wfPropVal] at hwf
  | pDatetime nl =>
      cases v
      case vdt t => exact ⟨.vdt t, isoParse_isoEncode t, by simp, rfl⟩
      all_goals simp [wfPropVal] at hwf
  | pMap =>
      simp only [wfPropVal, Bool.and_eq_true, Bool.not_eq_true'] at hwf
      obtain ⟨h1, h2⟩ := hwf
      refine ⟨v, ?_, isNullV_false_ne v h1, rfl⟩
      show applyLoadK .lkId (dumpVal v) = .ok v
      rw [jsonPure_dumpVal v h2]
      cases v <;> rfl
  | pPlain =>
      simp only [wfPropVal, Bool.and_eq_true, Bool.not_eq_true'] at hwf
      obtain ⟨h1, h2⟩ := hwf
      refine ⟨v, ?_, isNullV_false_ne v h1, rfl⟩
      show applyLoadK .lkId (dumpVal v) = .ok v
      rw [jsonPure_dumpVal v h2]
      cases v <;> rfl
  | pInstOf c' hd =>
      cases v
      case vent c'' dims'' d'' =>
        simp only [wfPropVal, Bool.and_eq_true, decide_eq_true_eq] at hwf
        obtain ⟨hc, _⟩ := hwf
        subst hc
        exact ⟨.vent c'' dims'' d'', hnest c'' dims'' d'' rfl, by simp, rfl⟩
      all_goals simp [wfPropVal] at hwf
  | pListOf c' =>
      cases v
      case vlist xs =>
        refine ⟨.vlist xs, ?_, by simp, rfl⟩
        have hll : loadList c' (dumpList xs) = .ok xs := by
          apply loadList_restore
          intro x hx
          obtain ⟨dims2, d2, hxe, _⟩ := wfEntList_mem c' xs hwf x hx
          subst hxe
          exact hlist xs rfl _ hx c' dims2 d2 rfl
        show applyLoadK (.lkList c') (.vlist (dumpList xs)) = .ok (.vlist xs)
        simp only [applyLoadK, hll]
      all_goals simp [wfPropVal] at hwf

theorem cs_not_declared (c : Cls) : lookupP "content-spec" (clsProps c) = none := by
  cases c <;> rfl

theorem checkFn_pPlain_jsonPure (own k : String) (v : Val)
    (h : jsonPure v = true) : checkFn own k .pPlain v = .ok [] := by
  cases v
  case vent c2 dims2 d2 => simp [jsonPure] at h
  case vdt t => simp [jsonPure] at h
  all_goals rfl

theorem jsonPureL_mem : ∀ {xs : List Val}, jsonPureL xs = true →
    ∀ {x : Val}, x ∈ xs → jsonPure x = true := by
  intro xs
  induction xs with
  | nil =>
      intro _ x hx
      simp at hx
  | cons y rest ih =>
      intro h x hx
      simp only [jsonPureL, Bool.and_eq_true] at h
      rcases List.mem_cons.mp hx with rfl | hm
      · exact h.1
      · exact ih h.2 hm

theorem wfSeriesEntries_mem :
    ∀ es : List (String × Val), wfSeriesEntries es = true →
      ∀ k v, (k, v) ∈ es → jsonPure v = true := by
  intro es
  induction es with
  | nil =>
      intro _ k v h
      simp at h
  | cons e rest ih =>
      obtain ⟨k0, v0⟩ := e
      intro h k v hm
      simp only [wfSeriesEntries, Bool.and_eq_true] at h
      obtain ⟨hhead, hrest⟩ := h
      rcases List.mem_cons.mp hm with heq | hmem
      · injection heq with h1 h2
        subst h1
        subst h2
        by_cases ht : k = "$_time"
        · rw [if_pos ht] at hhead
          exact hhead
        · rw [if_neg ht] at hhead
          simp only [Bool.and_eq_true] at hhead
          exact hhead.2
      · exact ih hrest k v hmem

/-- Only `InstanceOf` properties accept entity values, so a canonical
entity value is a canonical entity. -/
theorem wfPropVal_vent {pc : PCtor} {c'' : Cls} {dims'' : List String} {d'' : Val}
    (h : wfPropVal pc (.vent c'' dims'' d'') = true) :
    wfEnt c'' dims'' d'' = true := by
  cases pc with
  | pInstOf c' hd =>
      simp only [wfPropVal, Bool.and_eq_true, decide_eq_true_eq] at h
      exact h.2
  | pMap => simp [wfPropVal, jsonPure] at h
  | pPlain => simp [wfPropVal, jsonPure] at h
  | pString b os nl => simp [wfPropVal] at h
  | pFloat nl => simp [wfPropVal] at h
  | pDatetime nl => simp [wfPropVal] at h
  | pListOf c2 => simp [wfPropVal] at h

/-- An entity inside a canonical list value is a canonical `ListOf`
element. -/
theorem wfPropVal_vlist_mem {pc : PCtor} {xs : List Val}
    (h : wfPropVal pc (.vlist xs) = true) {x : Val} (hx : x ∈ xs)
    {c'' : Cls} {dims'' : List String} {d'' : Val}
    (hxe : x = .vent c'' dims'' d'') : wfEnt c'' dims'' d'' = true := by
  cases pc with
  | pListOf c' =>
      obtain ⟨dims2, d2, he, hw⟩ := wfEntList_mem c' xs h x hx
      rw [hxe] at he
      injection he with e1 e2 e3
      subst e1
      subst e2
      subst e3
      exact hw
  | pMap =>
      simp only [wfPropVal, Bool.and_eq_true] at h
      have := jsonPureL_mem h.2 hx
      rw [hxe] at this
      simp [jsonPure] at this
  | pPlain =>
      simp only [wfPropVal, Bool.and_eq_true] at h
      have := jsonPureL_mem h.2 hx
      rw [hxe] at this
      simp [jsonPure] at this
  | pString b os nl => simp [wfPropVal] at h
  | pFloat nl => simp [wfPropVal] at h
  | pDatetime nl => simp [wfPropVal] at h
  | pInstOf c2 hd => simp [wfPropVal] at h

/-- Canonical entities validate cleanly and roundtrip: `problems()`
returns no errors and `cls.load` applied to the dumped store rebuilds the
entity unchanged — field order, dimension lists and all nested entities
included. -/
theorem wf_main : ∀ n : Nat, ∀ (c : Cls) (dims : List String) (d : Val),
    sizeOf d ≤ n → wfEnt c dims d = true →
    problemsE c dims d = .ok [] ∧ entLoad c (dumpVal d) = .ok (.vent c dims d) := by
  intro n
  induction n using Nat.strong_induction_on with
  | _ n IH =>
    intro c dims d hs hwf
    cases d
    case vdict es =>
      simp only [wfEnt, Bool.and_eq_true] at hwf
      obtain ⟨hnk, hrest⟩ := hwf
      have hnd : (keysOf es).Nodup := (nodupKeys_iff _).mp hnk
      have hszes : sizeOf es < n := lt_of_lt_of_le (szV_dict es) hs
      cases hls : loadStyle c with
      | plain =>
          rw [hls] at hrest
          simp only [Bool.and_eq_true] at hrest
          obtain ⟨⟨hdims, hcs⟩, hwfp⟩ := hrest
          have hdims0 : dims = [] := by
            cases dims
            · rfl
            · simp at hdims
          subst hdims0
          have hnest : ∀ k v, (k, v) ∈ es → ∀ pcx, wfPropVal pcx v = true →
              ∀ c'' dims'' d'', v = .vent c'' dims'' d'' →
                problemsE c'' dims'' d'' = .ok [] ∧
                applyLoadK (.lkEnt c'') (dumpVal d'') = .ok (.vent c'' dims'' d'') := by
            intro k v hm pcx hwfv c'' dims'' d'' hve
            have hwfE : wfEnt c'' dims'' d'' = true := by
              rw [hve] at hwfv
              exact wfPropVal_vent hwfv
            have hsd : sizeOf d'' < n := by
              have h1 := szE_mem hm
              have h2 : sizeOf d'' < sizeOf v := by
                rw [hve]
                exact szV_ent c'' dims'' d''
              omega
            exact IH (sizeOf d'') hsd c'' dims'' d'' le_rfl hwfE
          have hnestL : ∀ k v, (k, v) ∈ es → ∀ pcx, wfPropVal pcx v = true →
              ∀ xs, v = .vlist xs → ∀ x ∈ xs,
                ∀ c'' dims'' d'', x = .vent c'' dims'' d'' →
                  applyLoadK (.lkEnt c'') (dumpVal d'') = .ok (.vent c'' dims'' d'') := by
            intro k v hm pcx hwfv xs hvx x hx c'' dims'' d'' hxe
            have hwfE : wfEnt c'' dims'' d'' = true :=
              wfPropVal_vlist_mem (hvx ▸ hwfv) hx hxe
            have hsd : sizeOf d'' < n := by
              have h1 := szE_mem hm
              have h2 : sizeOf xs < sizeOf v := by
                rw [hvx]
                exact szV_list xs
              have h3 := szL_mem hx
              have h4 : sizeOf d'' < sizeOf x := by
                rw [hxe]
                exact szV_ent c'' dims'' d''
              omega
            exact (IH (sizeOf d'') hsd c'' dims'' d'' le_rfl hwfE).2
          have hchecks : ∀ nm pcx, (nm, pcx) ∈ clsProps c → nm ∈ keysOf es →
              lookupC nm (checkEntries c es) = some (.ok []) := by
            intro nm pcx hpm hnm
            have hlp : lookupP nm (clsProps c) = some pcx :=
              lookupP_of_mem_nodup (clsProps_names_nodup c) hpm
            obtain ⟨v, hv⟩ : ∃ v, lookupV nm es = some v := by
              cases hvo : lookupV nm es with
              | none => exact absurd hnm (lookupV_none_iff.mp hvo)
              | some v => exact ⟨v, rfl⟩
            have hmem := lookupV_mem hv
            rcases wfPlainEntries_mem c es hwfp nm v hmem with
              ⟨hcs2, _⟩ | ⟨_, pc2, hlp2, hwfv⟩
            · subst hcs2
              rw [cs_not_declared c] at hlp
              cases hlp
            · rw [hlp] at hlp2
              injection hlp2 with he
              subst he
              rw [lookupC_checkEntries c hlp es, hv]
              have hchk : checkFn (clsName c) nm pcx v = .ok [] :=
                wfPropVal_check (clsName c) nm pcx v hwfv
                  (fun c'' dims'' d'' hve =>
                    (hnest nm v hmem pcx hwfv c'' dims'' d'' hve).1)
              show some (checkFn (clsName c) nm pcx v) = some (.ok [])
              rw [hchk]
          have hentry : ∀ k v, (k, v) ∈ es →
              (lookupP k (clsProps c) = none → dumpVal v = v) ∧
              (∀ pcx, lookupP k (clsProps c) = some pcx →
                ∃ lv, applyLoadK (toLoadK pcx) (dumpVal v) = .ok lv ∧ lv ≠ .vnull ∧
                  applyConv (toConv pcx) lv = .ok v ∧
                  checkFn (clsName c) k pcx v = .ok []) := by
            intro k v hm
            rcases wfPlainEntries_mem c es hwfp k v hm with
              ⟨hcs2, hs2⟩ | ⟨_, pc2, hlp2, hwfv⟩
            · subst hcs2
              constructor
              · intro _
                cases hcso : csOf c with
                | none =>
                    rw [hcso] at hs2
                    simp at hs2
                | some urn =>
                    rw [hcso] at hcs
                    have hcsOK : csOK urn es = true := by
                      simpa using hcs
                    have hcsl := csOK_spec hcsOK
                    have hv2 : lookupV "content-spec" es = some v :=
                      lookupV_of_mem_nodup hnd hm
                    rw [hcsl] at hv2
                    injection hv2 with hv3
                    rw [← hv3]
                    rfl
              · intro pcx hpx
                rw [cs_not_declared c] at hpx
                cases hpx
            · constructor
              · intro hnone
                rw [hnone] at hlp2
                cases hlp2
              · intro pcx hpx
                rw [hpx] at hlp2
                injection hlp2 with he
                subst he
                obtain ⟨lv, h1, h2, h3⟩ := wfPropVal_restore pcx v hwfv
                  (fun c'' dims'' d'' hve =>
                    (hnest k v hm pcx hwfv c'' dims'' d'' hve).2)
                  (hnestL k v hm pcx hwfv)
                exact ⟨lv, h1, h2, h3,
                  wfPropVal_check (clsName c) k pcx v hwfv
                    (fun c'' dims'' d'' hve =>
                      (hnest k v hm pcx hwfv c'' dims'' d'' hve).1)⟩
          have hloadE : objLoadLoop c (dumpEntries es) (dumpEntries es) = .ok es := by
            have hr := objLoadLoop_restore c es []
              (fun j _ => by simp [keysOf]) hnd hentry
            simpa using hr
          refine ⟨?_, ?_⟩
          · cases hcso : csOf c with
            | some urn =>
                rw [hcso] at hcs
                have hcsOK : csOK urn es = true := by
                  simpa using hcs
                have hcsl := csOK_spec hcsOK
                have hcont : (keysOf es).contains "content-spec" = true :=
                  List.elem_iff.mpr (mem_keysOf_of_lookupV hcsl)
                simp only [problemsE, hcso]
                rw [if_pos hcont]
                obtain ⟨rem, hpl, hrem⟩ := probLoopA_ok_all (checkEntries c es)
                  (clsProps c) ((keysOf es).erase "content-spec")
                  (hnd.erase "content-spec")
                  (fun nm p hp hn => hchecks nm p hp (List.mem_of_mem_erase hn))
                have hremnil : rem = [] := by
                  rw [List.eq_nil_iff_forall_not_mem]
                  intro k hk
                  obtain ⟨hk1, hk2⟩ := hrem k hk
                  have hkes : k ∈ keysOf es := List.mem_of_mem_erase hk1
                  obtain ⟨v, hv⟩ : ∃ v, lookupV k es = some v := by
                    cases hvo : lookupV k es with
                    | none => exact absurd hkes (lookupV_none_iff.mp hvo)
                    | some v => exact ⟨v, rfl⟩
                  rcases wfPlainEntries_mem c es hwfp k v (lookupV_mem hv) with
                    ⟨hcs2, _⟩ | ⟨_, pc2, hlp2, _⟩
                  · subst hcs2
                    exact (List.Nodup.not_mem_erase hnd) hk1
                  · rw [hk2] at hlp2
                    cases hlp2
                subst hremnil
                simp only [runProblemsA, hpl, csErrList_ok c hcsOK]
                simp
            | none =>
                simp only [problemsE, hcso]
                obtain ⟨rem, hpl, hrem⟩ := probLoopA_ok_all (checkEntries c es)
                  (clsProps c) (keysOf es) hnd
                  (fun nm p hp hn => hchecks nm p hp hn)
                have hremnil : rem = [] := by
                  rw [List.eq_nil_iff_forall_not_mem]
                  intro k hk
                  obtain ⟨hk1, hk2⟩ := hrem k hk
                  obtain ⟨v, hv⟩ : ∃ v, lookupV k es = some v := by
                    cases hvo : lookupV k es with
                    | none => exact absurd hk1 (lookupV_none_iff.mp hvo)
                    | some v => exact ⟨v, rfl⟩
                  rcases wfPlainEntries_mem c es hwfp k v (lookupV_mem hv) with
                    ⟨_, hs2⟩ | ⟨_, pc2, hlp2, _⟩
                  · rw [hcso] at hs2
                    simp at hs2
                  · rw [hk2] at hlp2
                    cases hlp2
                subst hremnil
                simp only [runProblemsA, hpl]
                simp
          · show applyLoadK (.lkEnt c) (.vdict (dumpEntries es))
                = .ok (.vent c [] (.vdict es))
            simp only [applyLoadK, hls, hloadE]
      | dimsLoad =>
          rw [hls] at hrest
          cases hdt : dimTypeOf c with
          | none =>
              rw [hdt] at hrest
              simp at hrest
          | some dt =>
              rw [hdt] at hrest
              simp only [Bool.and_eq_true, decide_eq_true_eq] at hrest
              obtain ⟨hdimseq, hwfd⟩ := hrest
              subst hdimseq
              have hcs0 : csOf c = none := dimsLoad_no_cs c hls
              have hpr0 : clsProps c = [] := dimsLoad_no_props c hls
              refine ⟨?_, ?_⟩
              · simp only [problemsE, hcs0, runProblemsA, hpr0, probLoopA]
                have hfil : (keysOf es).filter
                    (fun k => !(excessOK c (keysOf es) k)) = [] := by
                  rw [List.filter_eq_nil_iff]
                  intro k hk
                  have hx : excessOK c (keysOf es) k = true := by
                    simp only [excessOK, hdt]
                    exact List.elem_iff.mpr hk
                  simp [hx]
                rw [hfil]
                simp
              · show applyLoadK (.lkEnt c) (.vdict (dumpEntries es))
                    = .ok (.vent c (keysOf es) (.vdict es))
                simp only [applyLoadK, hls, hdt]
                have hr := dimsBuild_restore dt es []
                  (fun j _ => by simp [keysOf]) hnd hwfd
                have hr2 : dimsBuild dt (dumpEntries es) (dumpEntries es) []
                    = (es, keysOf es) := by
                  simpa [keysOf] using hr
                rw [hr2]
      | seriesLoad =>
          rw [hls] at hrest
          simp only [Bool.and_eq_true, decide_eq_true_eq] at hrest
          obtain ⟨hdimseq, hwfs⟩ := hrest
          subst hdimseq
          obtain ⟨hdt, hpr, hcs0⟩ := seriesLoad_shape c hls
          refine ⟨?_, ?_⟩
          · have hH : ∀ nm p, (nm, p) ∈ clsProps c → nm ∈ keysOf es →
                lookupC nm (checkEntries c es) = some (.ok []) := by
              intro nm p hpm hnm
              rw [hpr] at hpm
              have hpair := List.mem_singleton.mp hpm
              injection hpair with e1 e2
              subst e1
              subst e2
              have hlp : lookupP "$_time" (clsProps c) = some .pPlain := by
                rw [hpr]
                rfl
              obtain ⟨v, hv⟩ : ∃ v, lookupV "$_time" es = some v := by
                cases hvo : lookupV "$_time" es with
                | none => exact absurd hnm (lookupV_none_iff.mp hvo)
                | some v => exact ⟨v, rfl⟩
              rw [lookupC_checkEntries c hlp es, hv]
              have hj : jsonPure v = true :=
                wfSeriesEntries_mem es hwfs "$_time" v (lookupV_mem hv)
              show some (checkFn (clsName c) "$_time" .pPlain v) = some (.ok [])
              rw [checkFn_pPlain_jsonPure (clsName c) "$_time" v hj]
            simp only [problemsE, hcs0]
            obtain ⟨rem, hpl, hrem⟩ := probLoopA_ok_all (checkEntries c es)
              (clsProps c) (keysOf es) hnd hH
            have hfil : rem.filter
                (fun k => !(excessOK c (seriesDims (keysOf es)) k)) = [] := by
              rw [List.filter_eq_nil_iff]
              intro k hk
              obtain ⟨hk1, hk2⟩ := hrem k hk
              have hkt : ¬ (k = "$_time") := by
                intro he
                subst he
                rw [hpr] at hk2
                simp [lookupP] at hk2
              have hx : excessOK c (seriesDims (keysOf es)) k = true := by
                simp only [excessOK, hdt]
                exact List.elem_iff.mpr (seriesDims_mem_of hk1 hkt)
              simp [hx]
            simp only [runProblemsA, hpl, hfil]
            simp
          · show applyLoadK (.lkEnt c) (.vdict (dumpEntries es))
                = .ok (.vent c (seriesDims (keysOf es)) (.vdict es))
            simp only [applyLoadK, hls, hdt]
            have hr := seriesBuild_restore es []
              (fun j _ => by simp [keysOf]) hnd hwfs
            have hr2 : seriesBuild .listD (dumpEntries es) (dumpEntries es) []
                = (es, seriesDims (keysOf es)) := by
              simpa [keysOf, seriesDims] using hr
            rw [hr2]
    all_goals simp [wfEnt] at hwf

/-- C1 counterexample: a MeasurementPayload whose `measurements` value is
the raw list `[3]` is *valid* — `problems()` returns `[]`, because
`Property.check` only validates values that expose a `problems` attribute
and a plain int does not — yet `loads(dumps(P))` does not return an equal
payload: `Measurement.load(3)` iterates `3.items()` and raises
`AttributeError`.  So validity alone does not imply roundtrip fidelity,
refuting the claim as stated. -/
theorem c1_counterexample :
    problemsE .measurementPayload []
      (.vdict [("content-spec",
          .vstr "urn:spec://eclipse.org/unide/measurement-message#v2"),
        ("measurements", .vlist [.vint 3])]) = .ok [] ∧
    unideLoads (dumpVal (.vent .measurementPayload []
      (.vdict [("content-spec",
          .vstr "urn:spec://eclipse.org/unide/measurement-message#v2"),
        ("measurements", .vlist [.vint 3])])))
      = .error "AttributeError: object has no attribute items" :=
  ⟨rfl, rfl⟩

/-- C1 (amended): roundtrip fidelity holds on the canonical payloads the
public API builds, not on all valid ones.  For every payload class and
every canonical store (distinct keys, correct discriminator, every
declared key holding a converted non-null value of the declared type with
nested entities canonical in turn, dimension containers JSON-pure and
dimension lists derived from the keys), the payload is valid — UNDER
`problems() == []` — and `loads(dumps(P))` rebuilds `P` exactly,
preserving field insertion order and the absent-versus-null distinction
(Val structural equality).  The counterexample shows validity alone is
not enough. -/
theorem c1_theorem (c : Cls) (urn : String) (es : List (String × Val))
    (hurn : csOf c = some urn)
    (hwf : wfEnt c [] (.vdict es) = true) :
    problemsE c [] (.vdict es) = .ok [] ∧
    unideLoads (dumpVal (.vent c [] (.vdict es)))
      = .ok (.vent c [] (.vdict es)) := by
  have hmain := wf_main (sizeOf (Val.vdict es)) c [] (.vdict es) le_rfl hwf
  refine ⟨hmain.1, ?_⟩
  have hpl : loadStyle c = .plain := by
    cases c <;> first | rfl | simp [csOf] at hurn
  have hcsOK : csOK urn es = true := by
    simp only [wfEnt, hpl, hurn, List.isEmpty_nil, Bool.true_and,
      Bool.and_eq_true] at hwf
    exact hwf.2.1
  have hcsl := csOK_spec hcsOK
  show unideLoads (.vdict (dumpEntries es)) = .ok (.vent c [] (.vdict es))
  have hlk : lookupV "content-spec" (dumpEntries es) = some (.vstr urn) := by
    rw [lookupV_dumpEntries, hcsl]
    rfl
  simp only [unideLoads, hlk, csOf_registry c urn hurn]
  exact hmain.2

/-- C1 witness: a concrete canonical MessagePayload — a device with an ID
and one message carrying a timestamp and a code — validates cleanly and
survives `loads(dumps(...))` unchanged. -/
theorem c1_witness :
    problemsE .messagePayload []
      (.vdict [("content-spec",
          .vstr "urn:spec://eclipse.org/unide/machine-message#v2"),
        ("device", .vent .device [] (.vdict [("deviceID", .vstr "d1")])),
        ("messages", .vlist [.vent .message []
          (.vdict [("ts", .vdt 0), ("code", .vstr "C1")])])]) = .ok [] ∧
    unideLoads (dumpVal (.vent .messagePayload []
      (.vdict [("content-spec",
          .vstr "urn:spec://eclipse.org/unide/machine-message#v2"),
        ("device", .vent .device [] (.vdict [("deviceID", .vstr "d1")])),
        ("messages", .vlist [.vent .message []
          (.vdict [("ts", .vdt 0), ("code", .vstr "C1")])])])))
      = .ok (.vent .messagePayload []
        (.vdict [("content-spec",
            .vstr "urn:spec://eclipse.org/unide/machine-message#v2"),
          ("device", .vent .device [] (.vdict [("deviceID", .vstr "d1")])),
          ("messages", .vlist [.vent .message []
            (.vdict [("ts", .vdt 0), ("code", .vstr "C1")])])])) :=
  c1_theorem .messagePayload "urn:spec://eclipse.org/unide/machine-message#v2"
    [("content-spec", .vstr "urn:spec://eclipse.org/unide/machine-message#v2"),
     ("device", .vent .device [] (.vdict [("deviceID", .vstr "d1")])),
     ("messages", .vlist [.vent .message []
       (.vdict [("ts", .vdt 0), ("code", .vstr "C1")])])]
    rfl (by rfl)

/-! ### C10: keyword construction of `ProcessPayload` and the `deivce` typo -/

/-- C10 counterexample: the claim's own call `ProcessPayload(device=d,
process=p)` does NOT leave the `device` key absent — `Object.__new__`
setattrs every keyword argument through the declared properties before
`__init__` runs, so the constructed payload's backing store binds
`"device"` to the device (here first, in keyword order), and the `deivce`
typo in `__init__` is merely a dead plain-attribute assignment. -/
theorem c10_counterexample :
    processPayloadKw (.vent .device [] (.vdict []))
        (.vent .processE [] (.vdict []))
      = (none, .vent .processPayload []
          (.vdict [("device", .vent .device [] (.vdict [])),
                   ("process", .vent .processE [] (.vdict [])),
                   ("content-spec",
                     .vstr "urn:spec://eclipse.org/unide/process-message#v2")])) ∧
    lookupV "device"
        [("device", .vent .device [] (.vdict [])),
         ("process", .vent .processE [] (.vdict [])),
         ("content-spec",
           .vstr "urn:spec://eclipse.org/unide/process-message#v2")]
      = some (.vent .device [] (.vdict [])) :=
  ⟨rfl, rfl⟩

/-- C10 (amended): the `deivce` typo makes `__init__`'s device line a
dead store, but it does not keep `device` out of the payload.  Keyword
construction — the claim's own call — stores the device through
`Object.__new__`'s setattr loop before `__init__` runs: a successfully
constructed `ProcessPayload(device=d, process=p)` binds `d` under
`"device"` and its serialized JSON contains the `device` field.  Only the
`__init__` body never binds `device`: run on an empty store — the
positional-construction path, where `__new__` receives no keywords — it
yields a payload with no `device` key and no `device` field in the
serialized JSON. -/
theorem c10_theorem (device process : Val) (hnv : device ≠ .vnull) :
    (∀ st, processPayloadKw device process
        = (none, .vent .processPayload [] (.vdict st)) →
      lookupV "device" st = some device ∧
      "device" ∈ keysOf (dumpEntries st)) ∧
    (∀ part measurements st,
      (processPayloadInit [] device process part measurements).2
          = .vent .processPayload [] (.vdict st) →
      lookupV "device" st = none ∧ "device" ∉ keysOf (dumpEntries st)) := by
  have hlpd : lookupP "device" (clsProps .processPayload)
      = some (.pInstOf .device false) := rfl
  have hlpp : lookupP "process" (clsProps .processPayload)
      = some (.pInstOf .processE false) := rfl
  constructor
  · intro st hkw
    rcases h1 : setPropFn .processPayload "device" (.pInstOf .device false) [] device
      with ⟨o1, s1⟩
    cases o1 with
    | some e =>
        have heq : processPayloadKw device process
            = (some e, .vent .processPayload [] (.vdict s1)) := by
          simp only [processPayloadKw, objNew, hlpd, h1]
        rw [heq] at hkw
        have hfst := congrArg Prod.fst hkw
        simp at hfst
    | none =>
        obtain ⟨cv, hcv, hlkp⟩ := setPropFn_ok_lookup .processPayload "device"
          (.pInstOf .device false) [] s1 device hnv h1
        have hcv2 : (Except.ok device : Except String Val) = .ok cv := hcv
        injection hcv2 with hcv3
        subst hcv3
        rcases h2 : setPropFn .processPayload "process" (.pInstOf .processE false)
          s1 process with ⟨o2, s2⟩
        have hpres1 : lookupV "device" s2 = some device := by
          have hp := lookupV_setPropFn_ne .processPayload "process"
            (.pInstOf .processE false) s1 process "device" (by decide)
          rw [h2] at hp
          exact hp.trans hlkp
        cases o2 with
        | some e =>
            have heq : processPayloadKw device process
                = (some e, .vent .processPayload [] (.vdict s2)) := by
              simp only [processPayloadKw, objNew, hlpd, hlpp, h1, h2]
            rw [heq] at hkw
            have hfst := congrArg Prod.fst hkw
            simp at hfst
        | none =>
            have heq : processPayloadKw device process
                = processPayloadInit s2 device process .vnull .vnull := by
              simp only [processPayloadKw, objNew, hlpd, hlpp, h1, h2]
            rw [heq] at hkw
            have h2nd := congrArg Prod.snd hkw
            have hpre := processPayloadInit_preserve s2 device process .vnull .vnull
              "device" (by decide) (by decide) (by decide) (by decide) st h2nd
            refine ⟨?_, ?_⟩
            · rw [hpre]
              exact hpres1
            · rw [keysOf_dumpEntries]
              apply mem_keysOf_of_lookupV (v := device)
              rw [hpre]
              exact hpres1
  · intro part measurements st heq
    have hpre := processPayloadInit_preserve [] device process part measurements
      "device" (by decide) (by decide) (by decide) (by decide) st heq
    have hnone : lookupV "device" st = none := hpre
    refine ⟨hnone, ?_⟩
    rw [keysOf_dumpEntries]
    exact lookupV_none_iff.mp hnone

/-- C10 witness: constructing `ProcessPayload(device=Device(), process=
Process())` by keyword binds the device in the store and its key appears
in the serialized key set; running the bare `__init__` body on an empty
store (the positional path) leaves `device` absent from both. -/
theorem c10_witness :
    (lookupV "device"
        [("device", .vent .device [] (.vdict [])),
         ("process", .vent .processE [] (.vdict [])),
         ("content-spec",
           .vstr "urn:spec://eclipse.org/unide/process-message#v2")]
      = some (.vent .device [] (.vdict [])) ∧
     "device" ∈ keysOf (dumpEntries
        [("device", .vent .device [] (.vdict [])),
         ("process", .vent .processE [] (.vdict [])),
         ("content-spec",
           .vstr "urn:spec://eclipse.org/unide/process-message#v2")])) ∧
    (lookupV "device"
        [("content-spec",
           .vstr "urn:spec://eclipse.org/unide/process-message#v2"),
         ("process", .vent .processE [] (.vdict []))] = none ∧
     "device" ∉ keysOf (dumpEntries
        [("content-spec",
           .vstr "urn:spec://eclipse.org/unide/process-message#v2"),
         ("process", .vent .processE [] (.vdict []))])) := by
  have h := c10_theorem (.vent .device [] (.vdict []))
    (.vent .processE [] (.vdict [])) (by simp)
  exact ⟨h.1 _ rfl, h.2 .vnull .vnull _ rfl⟩

end Unide
